import Mathlib

/-!
# Path ORAM client/server model

A shallow embedding of the Path ORAM implementation in `src/client.rs` and
`src/server.rs` (the `PathORAMHandler` client and the `MyPathOram` gRPC server),
together with proofs of the specified properties.

Machine integers (`i32`) are modelled as `Int` where the sentinel `-1` matters
(block tags and payloads) and as `Nat` where the code only ever holds
non-negative values (tree levels, bucket indices, leaf labels, sizes).  Rust
panics (`expect`, out-of-bounds indexing, `gen_range` on an empty range) are
modelled as `none` / the `panic` status.  The pseudo-random generator is
modelled by an oracle: each `gen_range(0..num_leaves)` call receives an
arbitrary `sample : Nat` and yields `sample % num_leaves`; quantifying over the
oracle covers every possible RNG behaviour.  The client's stash `HashMap` is
modelled as an association list with distinct keys; `insert` replaces in place,
and the eviction scan iterates entries in list order (Rust's `HashMap`
iteration order is unspecified; the list order is one admissible order).
-/

namespace PathORAM

/-- A wire block: a logical address tag (`-1` = EMPTY) and a payload. -/
structure Block where
  index : Int
  value : Int
deriving Repr, DecidableEq

/-- Status outcomes of a modelled server call: the gRPC codes the handlers in
`src/server.rs` can return, plus `panic` for a Rust panic (the
`expect("There should always be enough blocks")` and out-of-bounds bucket
writes). `invalid` never occurs in the code; it is included so that the
specified `Invalid` behaviour is statable. -/
inductive Status where
  | notFound
  | invalid
  | internal
  | panic
deriving Repr, DecidableEq

/-- Server state: `data_store` (the bucket array) and the recorded
`bucket_size`, as in `MyPathOram`. -/
structure ServerState where
  data_store : List (List Block)
  bucket_size : Nat
deriving Repr, DecidableEq

/-- `MyPathOram::setup`: allocate `2^num_layers - 1` buckets, each of
`bucket_size` EMPTY blocks, and record `bucket_size`. -/
def server_setup (num_layers bucket_size : Nat) : ServerState :=
  ⟨List.replicate (2 ^ num_layers - 1) (List.replicate bucket_size ⟨-1, -1⟩),
   bucket_size⟩

/-- `MyPathOram::read_block`: for each requested index in order, emit its
entire bucket; `NotFound` if any index is out of range. -/
def read_block (srv : ServerState) : List Nat → Except Status (List Block)
  | [] => .ok []
  | i :: rest =>
    match srv.data_store.get? i with
    | some bucket => (read_block srv rest).map (bucket ++ ·)
    | none => .error .notFound

/-- The loop body of `MyPathOram::write_block`: for each index in order,
overwrite slots `0..bucket_size` of that bucket with the next `bucket_size`
blocks from the iterator.  An out-of-range index returns `NotFound` (earlier
buckets stay overwritten); running out of blocks, or a bucket shorter than
`bucket_size`, is a Rust panic.  No length precondition is checked. -/
def write_block_loop (bsz : Nat) :
    List Nat → List Block → List (List Block) → List (List Block) × Except Status Unit
  | [], _, store => (store, .ok ())
  | i :: rest, blocks, store =>
    match store.get? i with
    | none => (store, .error .notFound)
    | some bucket =>
      if bsz ≤ blocks.length ∧ bsz ≤ bucket.length then
        write_block_loop bsz rest (blocks.drop bsz)
          (store.set i (blocks.take bsz ++ bucket.drop bsz))
      else (store, .error .panic)

/-- `MyPathOram::write_block` (batched variant in `src/server.rs`). -/
def write_block (srv : ServerState) (indices : List Nat) (blocks : List Block) :
    ServerState × Except Status Unit :=
  let r := write_block_loop srv.bucket_size indices blocks srv.data_store
  (⟨r.1, srv.bucket_size⟩, r.2)

/-- Client state: the fields of `PathORAMHandler` (minus the transport
plumbing). `n`, `l` are set by `setup`; `pmap` holds leaf labels. -/
structure ClientState where
  n : Nat
  l : Nat
  z : Nat
  stash : List (Int × Int)
  pmap : List Nat
  num_leaves : Nat
deriving Repr, DecidableEq

/-- `HashMap::insert`: replace the binding in place if the key is present,
otherwise add it. -/
def stashInsert (stash : List (Int × Int)) (k v : Int) : List (Int × Int) :=
  if stash.any (fun p => p.1 == k) then
    stash.map (fun p => if p.1 == k then (k, v) else p)
  else stash ++ [(k, v)]

/-- `HashMap::get`. -/
def stashGet (stash : List (Int × Int)) (k : Int) : Option Int :=
  (stash.find? (fun p => p.1 == k)).map (·.2)

/-- `HashMap::remove` (the removed value is not used by the code). -/
def stashRemove (stash : List (Int × Int)) (k : Int) : List (Int × Int) :=
  stash.filter (fun p => p.1 != k)

/-- `PathORAMHandler::get_index` with `self.l = L`:
`let x = if self.l > 0 { (1 << self.l) + x } else { 1 }; (x >> (self.l - l)) - 1`. -/
def get_index (L x lv : Nat) : Nat :=
  let x' := if 0 < L then (1 <<< L) + x else 1
  (x' >>> (L - lv)) - 1

/-- Fuel-driven bitwise AND-NOT: mirrors `Nat.bitwise (fun a b => a && !b)`
(then `= Nat.ldiff`) step for step, with the fuel bounding the number of
halving steps, so that the function is structurally recursive and evaluates
by kernel reduction (which `Nat.bitwise`, a well-founded definition, does
not). -/
def ldiffFuel : Nat → Nat → Nat → Nat
  | 0, _, _ => 0
  | fuel + 1, n, m =>
    if n = 0 then 0
    else if m = 0 then n
    else
      let r := ldiffFuel fuel (n / 2) (m / 2)
      if n % 2 = 1 ∧ ¬m % 2 = 1 then r + r + 1 else r + r

/-- `x & !mask` on non-negative operands: bitwise set difference, equal to
`Nat.ldiff` (`natLdiff_eq_ldiff`). -/
def natLdiff (n m : Nat) : Nat := ldiffFuel (n + 1) n m

/-- `PathORAMHandler::get_on_path_indices` with `self.l = L`.  For `lv = L`
the iterator is `x..x+1`; otherwise `start..(end+1)` where
`start = x & !mask` and `end = x | mask` with `mask = (1 << (L-lv)) - 1`.
`natLdiff x mask` is `x & !mask` (the operands are non-negative `i32`s). -/
def get_on_path_indices (L x lv : Nat) : List Nat :=
  if lv = L then [x]
  else
    let d := L - lv
    let mask := (1 <<< d) - 1
    let start := natLdiff x mask
    let stop := x ||| mask
    List.range' start (stop + 1 - start)

/-- The root-to-leaf index list built by `update_stash`
(`for l in 0..=self.l { indices.push(self.get_index(x, l)) }`). -/
def path_indices (L x : Nat) : List Nat :=
  (List.range (L + 1)).map (get_index L x)

/-- The stash-refresh loop of `update_stash`: insert every returned block
whose tag is not `-1`. -/
def insertBlocks (stash : List (Int × Int)) (blocks : List Block) : List (Int × Int) :=
  blocks.foldl (fun st b => if b.index == -1 then st else stashInsert st b.index b.value) stash

/-- `rng.gen_range(0..num_leaves)`: panics (`none`) on an empty range;
otherwise the RNG outcome is an oracle `sample` reduced `mod num_leaves`. -/
def genRange (num_leaves sample : Nat) : Option Nat :=
  if num_leaves = 0 then none else some (sample % num_leaves)

/-- The per-level eligibility scan of `write_back_stash`: walk the stash in
iteration order; look up `pmap[a as usize]` (`none` = Rust panic on a negative
or out-of-range address); push `a` if its leaf is in `valid`; stop as soon as
the picked list has length `z`. -/
def wbSelect (pmap : List Nat) (valid : List Nat) (z : Nat) :
    List (Int × Int) → List Int → Option (List Int)
  | [], acc => some acc
  | p :: rest, acc => do
    let leaf ← if 0 ≤ p.1 then pmap.get? p.1.toNat else none
    let acc' := if valid.contains leaf then acc ++ [p.1] else acc
    if acc'.length = z then some acc' else wbSelect pmap valid z rest acc'

/-- The block-emission loop of `write_back_stash`: for each picked address,
emit `Block { value: self.stash[a], index: a }` (`none` = panic if absent) and
remove it from the stash. -/
def wbEmit : List Int → List (Int × Int) → Option (List Block × List (Int × Int))
  | [], stash => some ([], stash)
  | a :: rest, stash => do
    let v ← stashGet stash a
    let r ← wbEmit rest (stashRemove stash a)
    some (⟨a, v⟩ :: r.1, r.2)

/-- Accumulated state of the `write_back_stash` level loop: the shrinking
stash and the `WriteBlockRequest` under construction. -/
structure WBOut where
  stash : List (Int × Int)
  indices : List Nat
  blocks : List Block
deriving Repr, DecidableEq

/-- The level loop of `write_back_stash` over a list of levels
(`for l in (0..=self.l).rev()`): select up to `z` eligible stash entries,
emit their blocks, pad with EMPTY blocks up to `z`, append the target index
and the padded bucket to the request. -/
def wbLevels (L z : Nat) (pmap : List Nat) (x : Nat) :
    List Nat → WBOut → Option WBOut
  | [], s => some s
  | lv :: rest, s => do
    let target := get_index L x lv
    let valid := get_on_path_indices L x lv
    let sel ← wbSelect pmap valid z s.stash []
    let r ← wbEmit sel s.stash
    let padded := r.1 ++ List.replicate (z - r.1.length) ⟨-1, -1⟩
    wbLevels L z pmap x rest ⟨r.2, s.indices ++ [target], s.blocks ++ padded⟩

/-- `PathORAMHandler::write_back_stash` up to (but not including) the
`WriteBlock` RPC: build the batched request, leaf-to-root. -/
def write_back_stash (c : ClientState) (x : Nat) : Option WBOut :=
  wbLevels c.l c.z c.pmap x ((List.range (c.l + 1)).reverse) ⟨c.stash, [], []⟩

/-- The observable RPC activity of one logical access: the `ReadBlockRequest`
indices, whether that RPC succeeded, the `WriteBlockRequest` contents, and
whether that RPC succeeded. -/
structure AccessLog where
  readIndices : List Nat
  readOk : Bool
  writeIndices : List Nat
  writeBlocks : List Block
  writeOk : Bool
deriving Repr, DecidableEq

/-- Whether a server call succeeded. -/
def rpcOk : Except Status (List Block) → Bool
  | .ok _ => true
  | .error _ => false

/-- `PathORAMHandler::read`: remap `pmap[a]`, refresh the stash from the old
path (on RPC failure the code prints and continues with the stash unchanged),
capture `stash.get(&a)`, write the path back (again continuing on RPC
failure), and return the captured value. -/
def read (c : ClientState) (srv : ServerState) (a : Nat) (sample : Nat) :
    Option (Option Int × ClientState × ServerState × AccessLog) := do
  let x ← c.pmap.get? a
  let fresh ← genRange c.num_leaves sample
  let c1 : ClientState := { c with pmap := c.pmap.set a fresh }
  let rIdx := path_indices c1.l x
  let rRes := read_block srv rIdx
  let c2 : ClientState :=
    match rRes with
    | .ok blocks => { c1 with stash := insertBlocks c1.stash blocks }
    | .error _ => c1
  let out := stashGet c2.stash (a : Int)
  let wb ← write_back_stash c2 x
  let w := write_block srv wb.indices wb.blocks
  let c3 : ClientState := { c2 with stash := wb.stash }
  some (out, c3, w.1,
    ⟨rIdx, rpcOk rRes, wb.indices, wb.blocks, w.2.toBool⟩)

/-- Whether a unit server call succeeded. -/
def Except.toBool : Except Status Unit → Bool
  | .ok _ => true
  | .error _ => false

/-- `PathORAMHandler::write`: identical to `read` except that the midpoint
action is `stash.insert(a, data)` (returning the prior binding). -/
def write (c : ClientState) (srv : ServerState) (a : Nat) (v : Int) (sample : Nat) :
    Option (Option Int × ClientState × ServerState × AccessLog) := do
  let x ← c.pmap.get? a
  let fresh ← genRange c.num_leaves sample
  let c1 : ClientState := { c with pmap := c.pmap.set a fresh }
  let rIdx := path_indices c1.l x
  let rRes := read_block srv rIdx
  let c2 : ClientState :=
    match rRes with
    | .ok blocks => { c1 with stash := insertBlocks c1.stash blocks }
    | .error _ => c1
  let out := stashGet c2.stash (a : Int)
  let c2' : ClientState := { c2 with stash := stashInsert c2.stash (a : Int) v }
  let wb ← write_back_stash c2' x
  let w := write_block srv wb.indices wb.blocks
  let c3 : ClientState := { c2' with stash := wb.stash }
  some (out, c3, w.1,
    ⟨rIdx, rpcOk rRes, wb.indices, wb.blocks, w.2.toBool⟩)

/-- The write loop at the end of `PathORAMHandler::setup`
(`for (a, value) in data.iter().enumerate() { self.write(a, value) }`);
`gi` indexes the RNG oracle (one `gen_range` call per write). -/
def setupWrites (g : Nat → Nat) :
    List (Nat × Int) → Nat → ClientState → ServerState →
    Option (ClientState × ServerState)
  | [], _, c, srv => some (c, srv)
  | (a, v) :: rest, gi, c, srv => do
    let r ← write c srv a v (g gi)
    setupWrites g rest (gi + 1) r.2.1 r.2.2.1

/-- `PathORAMHandler::setup`: compute `n`, `l = ceil(log2 n)` (the `f64`
computation in the code equals `Nat.clog 2 n` on every representable size),
`num_leaves = if l > 0 { 2^l } else { 0 }`; initialize the server with
`l + 1` layers; draw `n` position-map samples; then write `data[a]` for
`a = 0, 1, ...` in order.  `none` models a Rust panic (for `n = 1`,
`num_leaves = 0` and `gen_range(0..0)` panics). -/
def setup (z : Nat) (data : List Int) (g : Nat → Nat) :
    Option (ClientState × ServerState) := do
  let n := data.length
  let l := Nat.clog 2 n
  let nl := if 0 < l then 2 ^ l else 0
  let srv := server_setup (l + 1) z
  let pmap ← (List.range n).mapM (fun i => genRange nl (g i))
  let c : ClientState := ⟨n, l, z, [], pmap, nl⟩
  setupWrites g data.enum n c srv

/-- A logical operation issued by the application. -/
inductive Op where
  | rd (a : Nat)
  | wr (a : Nat) (v : Int)
deriving Repr, DecidableEq

/-- Run one logical access. -/
def stepOp (c : ClientState) (srv : ServerState) :
    Op → Nat → Option (Option Int × ClientState × ServerState × AccessLog)
  | .rd a, s => read c srv a s
  | .wr a v, s => write c srv a v s

/-- Run a sequence of logical accesses, each with its RNG oracle sample. -/
def runOps : ClientState → ServerState → List (Op × Nat) →
    Option (ClientState × ServerState)
  | c, srv, [] => some (c, srv)
  | c, srv, (op, s) :: rest => do
    let r ← stepOp c srv op s
    runOps r.2.1 r.2.2.1 rest

/-- The states reachable by `setup` followed by any sequence of successful
read/write accesses, together with the abstract memory contents they should
realise (`m a` = last value written to `a`, starting from the `setup` data).
`0 < z` reflects the spec's parameter constraint `Z ≥ 2` (any positive `Z`
is admitted); `2 ≤ data.length` is the `N ≥ 2` regime in which
`num_leaves > 0`. -/
inductive ReachesWith : ClientState → ServerState → (Nat → Option Int) → Prop where
  | init (z : Nat) (data : List Int) (g : Nat → Nat) (c : ClientState)
      (srv : ServerState) (hz : 0 < z) (hn : 2 ≤ data.length)
      (h : setup z data g = some (c, srv)) :
      ReachesWith c srv (fun a => data.get? a)
  | readStep (c : ClientState) (srv : ServerState) (m : Nat → Option Int)
      (a sample : Nat) (out : Option Int) (c' : ClientState)
      (srv' : ServerState) (log : AccessLog)
      (hr : ReachesWith c srv m)
      (h : read c srv a sample = some (out, c', srv', log)) :
      ReachesWith c' srv' m
  | writeStep (c : ClientState) (srv : ServerState) (m : Nat → Option Int)
      (a sample : Nat) (v : Int) (out : Option Int) (c' : ClientState)
      (srv' : ServerState) (log : AccessLog)
      (hr : ReachesWith c srv m)
      (h : write c srv a v sample = some (out, c', srv', log)) :
      ReachesWith c' srv' (fun k => if k = a then some v else m k)

instance {e a : Type} [DecidableEq e] [DecidableEq a] : DecidableEq (Except e a)
  | .ok x, .ok y =>
    if h : x = y then isTrue (by rw [h]) else isFalse (fun hc => h (Except.ok.inj hc))
  | .error x, .error y =>
    if h : x = y then isTrue (by rw [h]) else isFalse (fun hc => h (Except.error.inj hc))
  | .ok _, .error _ => isFalse (fun hc => Except.noConfusion hc)
  | .error _, .ok _ => isFalse (fun hc => Except.noConfusion hc)

/-! ## Concrete fixture states (used by the claim witnesses below) -/

/-- Concrete RNG oracle returning `0` for every draw. -/
def g0 : Nat → Nat := fun _ => 0

/-- The client state produced by `setup 1 [10, 20] g0`. -/
def c0v : ClientState := ⟨2, 1, 1, [], [0, 0], 2⟩

/-- The server state produced by `setup 1 [10, 20] g0`. -/
def srv0v : ServerState := ⟨[[⟨1, 20⟩], [⟨0, 10⟩], [⟨-1, -1⟩]], 1⟩

/-- Server state after `write c0v srv0v 0 99 0`. -/
def srv1v : ServerState := ⟨[[⟨0, 99⟩], [⟨1, 20⟩], [⟨-1, -1⟩]], 1⟩

/-- Server state after additionally running `read 1`. -/
def srv2v : ServerState := ⟨[[⟨1, 20⟩], [⟨0, 99⟩], [⟨-1, -1⟩]], 1⟩

/-- The access log of the concrete accesses below. -/
def log1v : AccessLog := ⟨[0, 1], true, [1, 0], [⟨1, 20⟩, ⟨0, 99⟩], true⟩

/-- The implicit-heap parent of bucket `j` (`j = 0` is the root). -/
def heapParent (j : Nat) : Nat := (j - 1) / 2

/-- The client invariant tying a reachable client/server state to the
abstract memory contents `m`. -/
structure Inv (c : ClientState) (srv : ServerState) (m : Nat → Option Int) : Prop where
  n_ge : 2 ≤ c.n
  z_pos : 0 < c.z
  l_pos : 0 < c.l
  nl_eq : c.num_leaves = 2 ^ c.l
  pmap_len : c.pmap.length = c.n
  pmap_lt : ∀ j, j < c.n → c.pmap.getD j 0 < c.num_leaves
  bsz : srv.bucket_size = c.z
  store_len : srv.data_store.length = 2 ^ (c.l + 1) - 1
  bucket_len : ∀ bu ∈ srv.data_store, bu.length = c.z
  stash_nodup : (c.stash.map Prod.fst).Nodup
  stash_entry : ∀ p ∈ c.stash, 0 ≤ p.1 ∧ p.1.toNat < c.n ∧ m p.1.toNat = some p.2
  tree_entry : ∀ bu ∈ srv.data_store, ∀ blk ∈ bu, blk.index ≠ -1 →
    0 ≤ blk.index ∧ blk.index.toNat < c.n ∧ m blk.index.toNat = some blk.value
  coverage : ∀ b, b < srv.data_store.length →
    ∀ blk ∈ srv.data_store.getD b [], blk.index ≠ -1 →
    ∃ lv, lv ≤ c.l ∧ b = get_index c.l (c.pmap.getD blk.index.toNat 0) lv
  exists_occ : ∀ a, a < c.n → ∀ v, m a = some v →
    ((a : Int), v) ∈ c.stash ∨
    ∃ b, b < srv.data_store.length ∧ (⟨(a : Int), v⟩ : Block) ∈ srv.data_store.getD b []
  none_occ : ∀ a, a < c.n → m a = none →
    (∀ p ∈ c.stash, p.1 ≠ (a : Int)) ∧
    (∀ bu ∈ srv.data_store, ∀ blk ∈ bu, blk.index ≠ (a : Int))

/-- A mid-access client state with two stash entries mapped to leaf `1`. -/
def cC4 : ClientState := ⟨2, 1, 1, [(0, 10), (1, 20)], [1, 1], 2⟩

/-- A server whose store is empty, so every RPC fails. -/
def srvE : ServerState := ⟨[], 1⟩

/-- Client state after `read c0v srv0v 0 3` (or the matching write). -/
def cRv : ClientState := ⟨2, 1, 1, [], [1, 0], 2⟩

/-- Server state after `read c0v srv0v 0 3`. -/
def srvRv : ServerState := ⟨[[⟨0, 10⟩], [⟨1, 20⟩], [⟨-1, -1⟩]], 1⟩

/-- Access log of `read c0v srv0v 0 3`. -/
def logRv : AccessLog := ⟨[0, 1], true, [1, 0], [⟨1, 20⟩, ⟨0, 10⟩], true⟩

/-- Server state after `write c0v srv0v 0 77 3`. -/
def srvWv : ServerState := ⟨[[⟨0, 77⟩], [⟨1, 20⟩], [⟨-1, -1⟩]], 1⟩

/-- Access log of `write c0v srv0v 0 77 3`. -/
def logWv : AccessLog := ⟨[0, 1], true, [1, 0], [⟨1, 20⟩, ⟨0, 77⟩], true⟩

/-! ## Geometry of `get_index` and `get_on_path_indices` -/

/-- For a positive depth, `get_index` is the shifted-division formula. -/
theorem get_index_eq_div (L x lv : Nat) (hL : 0 < L) :
    get_index L x lv = (2 ^ L + x) / 2 ^ (L - lv) - 1 := by
  simp [get_index, hL, Nat.one_shiftLeft, Nat.shiftRight_eq_div_pow]

theorem quot_lb (L x lv : Nat) (hlv : lv ≤ L) :
    2 ^ lv ≤ (2 ^ L + x) / 2 ^ (L - lv) := by
  have h1 : 2 ^ L / 2 ^ (L - lv) = 2 ^ lv := by
    rw [Nat.pow_div (Nat.sub_le _ _) (by norm_num), Nat.sub_sub_self hlv]
  calc 2 ^ lv = 2 ^ L / 2 ^ (L - lv) := h1.symm
    _ ≤ (2 ^ L + x) / 2 ^ (L - lv) :=
        Nat.div_le_div_right (Nat.le_add_right _ _)

theorem quot_ub (L x lv : Nat) (hx : x < 2 ^ L) (hlv : lv ≤ L) :
    (2 ^ L + x) / 2 ^ (L - lv) < 2 ^ (lv + 1) := by
  rw [Nat.div_lt_iff_lt_mul (Nat.pos_pow_of_pos _ (by norm_num))]
  have h1 : 2 ^ (lv + 1) * 2 ^ (L - lv) = 2 ^ (L + 1) := by
    rw [← pow_add]
    congr 1
    omega
  rw [h1, pow_succ]
  omega

theorem get_index_lb (L x lv : Nat) (hL : 0 < L) (hlv : lv ≤ L) :
    2 ^ lv - 1 ≤ get_index L x lv := by
  rw [get_index_eq_div L x lv hL]
  have := quot_lb L x lv hlv
  omega

theorem get_index_ub (L x lv : Nat) (hL : 0 < L) (hx : x < 2 ^ L) (hlv : lv ≤ L) :
    get_index L x lv < 2 ^ (lv + 1) - 1 := by
  rw [get_index_eq_div L x lv hL]
  have h1 := quot_ub L x lv hx hlv
  have h2 := quot_lb L x lv hlv
  have h3 : 0 < 2 ^ lv := Nat.pos_pow_of_pos _ (by norm_num)
  omega

/-- Every path bucket index is inside the server's bucket array. -/
theorem get_index_lt_num_buckets (L x lv : Nat) (hL : 0 < L) (hx : x < 2 ^ L)
    (hlv : lv ≤ L) : get_index L x lv < 2 ^ (L + 1) - 1 := by
  have h1 := get_index_ub L x lv hL hx hlv
  have h2 : 2 ^ (lv + 1) ≤ 2 ^ (L + 1) := Nat.pow_le_pow_right (by norm_num) (by omega)
  omega

/-- Bucket indices at distinct levels occupy disjoint ranges, so the level of
a path bucket index is determined. -/
theorem get_index_level_inj (L x y lv1 lv2 : Nat) (hL : 0 < L) (hx : x < 2 ^ L)
    (hy : y < 2 ^ L) (h1 : lv1 ≤ L) (h2 : lv2 ≤ L)
    (h : get_index L x lv1 = get_index L y lv2) : lv1 = lv2 := by
  by_contra hne
  rcases Nat.lt_or_ge lv1 lv2 with hlt | hge
  · have ha := get_index_ub L x lv1 hL hx h1
    have hb := get_index_lb L y lv2 hL h2
    have hc : 2 ^ (lv1 + 1) ≤ 2 ^ lv2 := Nat.pow_le_pow_right (by norm_num) (by omega)
    omega
  · have hlt : lv2 < lv1 := by omega
    have ha := get_index_ub L y lv2 hL hy h2
    have hb := get_index_lb L x lv1 hL h1
    have hc : 2 ^ (lv2 + 1) ≤ 2 ^ lv1 := Nat.pow_le_pow_right (by norm_num) (by omega)
    omega

theorem bitwise_ldiff_step (n m : Nat) :
    Nat.bitwise (fun a b => a && !b) n m =
      if n = 0 then 0
      else if m = 0 then n
      else
        (if n % 2 = 1 ∧ ¬m % 2 = 1 then
          Nat.bitwise (fun a b => a && !b) (n / 2) (m / 2) +
            Nat.bitwise (fun a b => a && !b) (n / 2) (m / 2) + 1
        else
          Nat.bitwise (fun a b => a && !b) (n / 2) (m / 2) +
            Nat.bitwise (fun a b => a && !b) (n / 2) (m / 2)) := by
  conv_lhs => rw [Nat.bitwise]
  by_cases h0 : n = 0
  · simp [h0]
  · by_cases hm : m = 0
    · simp [h0, hm]
    · simp only [h0, hm, if_false]
      by_cases hb : n % 2 = 1 ∧ ¬m % 2 = 1
      · rw [if_pos ?httrue, if_pos hb]
        case httrue =>
          simp only [Bool.and_eq_true, Bool.not_eq_true', decide_eq_true_eq,
            decide_eq_false_iff_not]
          exact hb
      · rw [if_neg ?htfalse, if_neg hb]
        case htfalse =>
          simp only [Bool.and_eq_true, Bool.not_eq_true', decide_eq_true_eq,
            decide_eq_false_iff_not]
          exact hb

theorem ldiffFuel_eq : ∀ (fuel n m : Nat), n ≤ fuel →
    ldiffFuel (fuel + 1) n m = Nat.ldiff n m := by
  intro fuel
  induction fuel with
  | zero =>
    intro n m hn
    have h0 : n = 0 := by omega
    subst h0
    show ldiffFuel 1 0 m = Nat.ldiff 0 m
    rw [show Nat.ldiff 0 m = Nat.bitwise (fun a b => a && !b) 0 m from rfl,
      bitwise_ldiff_step]
    simp [ldiffFuel]
  | succ k ih =>
    intro n m hn
    rw [show Nat.ldiff n m = Nat.bitwise (fun a b => a && !b) n m from rfl,
      bitwise_ldiff_step]
    by_cases h0 : n = 0
    · simp [ldiffFuel, h0]
    · by_cases hm : m = 0
      · simp [ldiffFuel, h0, hm]
      · have hrec : ldiffFuel (k + 1) (n / 2) (m / 2) = Nat.ldiff (n / 2) (m / 2) :=
          ih (n / 2) (m / 2) (by omega)
        show ldiffFuel (k + 1 + 1) n m = _
        rw [ldiffFuel, if_neg h0, if_neg hm]
        simp only [hrec]
        rw [show Nat.ldiff (n / 2) (m / 2)
            = Nat.bitwise (fun a b => a && !b) (n / 2) (m / 2) from rfl]
        rw [if_neg h0, if_neg hm]

theorem natLdiff_eq_ldiff (n m : Nat) : natLdiff n m = Nat.ldiff n m :=
  ldiffFuel_eq n n m (Nat.le_refl n)

theorem ldiff_two_pow_sub_one (x d : Nat) :
    Nat.ldiff x (2 ^ d - 1) = 2 ^ d * (x / 2 ^ d) := by
  apply Nat.eq_of_testBit_eq
  intro i
  have hrhs : 2 ^ d * (x / 2 ^ d) = 2 ^ d * (x / 2 ^ d) + 0 := by omega
  rw [Nat.testBit_ldiff, Nat.testBit_two_pow_sub_one, hrhs,
    Nat.testBit_mul_pow_two_add _ (Nat.pos_pow_of_pos _ (by norm_num))]
  by_cases hi : i < d
  · simp [hi]
  · have hx : x / 2 ^ d = x >>> d := (Nat.shiftRight_eq_div_pow x d).symm
    have hdi : d + (i - d) = i := by omega
    simp [hi, hx, Nat.testBit_shiftRight, hdi]

theorem lor_two_pow_sub_one (x d : Nat) :
    x ||| (2 ^ d - 1) = 2 ^ d * (x / 2 ^ d) + (2 ^ d - 1) := by
  apply Nat.eq_of_testBit_eq
  intro i
  have hlt : 2 ^ d - 1 < 2 ^ d := by
    have : 0 < 2 ^ d := Nat.pos_pow_of_pos _ (by norm_num)
    omega
  rw [Nat.testBit_lor, Nat.testBit_two_pow_sub_one,
    Nat.testBit_mul_pow_two_add _ hlt]
  by_cases hi : i < d
  · simp [hi, Nat.testBit_two_pow_sub_one]
  · have hx : x / 2 ^ d = x >>> d := (Nat.shiftRight_eq_div_pow x d).symm
    have hdi : d + (i - d) = i := by omega
    simp [hi, hx, Nat.testBit_shiftRight, hdi]

/-- `y / n = q` iff `y` lies in the length-`n` window starting at `n * q`. -/
theorem div_eq_iff_window (n q y : Nat) (hn : 0 < n) :
    (n * q ≤ y ∧ y < n * q + n) ↔ y / n = q := by
  constructor
  · rintro ⟨h1, h2⟩
    apply Nat.div_eq_of_lt_le
    · rw [Nat.mul_comm]
      exact h1
    · have heq : (q + 1) * n = n * q + n := by ring
      omega
  · rintro rfl
    have h1 := Nat.mul_div_le y n
    have h2 := Nat.div_add_mod y n
    have h3 := Nat.mod_lt y hn
    omega

/-- Adding `2 ^ L` on top does not change equality of quotients by `2 ^ d`. -/
theorem shifted_div_eq_iff (L d y x : Nat) (hd : d ≤ L) :
    (2 ^ L + y) / 2 ^ d = (2 ^ L + x) / 2 ^ d ↔ y / 2 ^ d = x / 2 ^ d := by
  have h2d : 0 < 2 ^ d := Nat.pos_pow_of_pos _ (by norm_num)
  have hsplit : ∀ w : Nat, (2 ^ L + w) / 2 ^ d = 2 ^ (L - d) + w / 2 ^ d := by
    intro w
    have hL2 : 2 ^ L = 2 ^ d * 2 ^ (L - d) := by
      rw [← pow_add]
      congr 1
      omega
    rw [hL2, Nat.mul_add_div h2d]
  rw [hsplit, hsplit]
  omega

/-- Characterisation of `get_on_path_indices`: it contains exactly the leaf
labels whose root-to-leaf path passes through bucket `get_index L x lv`. -/
theorem mem_get_on_path_indices (L x lv : Nat) (hL : 0 < L) (hlv : lv ≤ L)
    (hx : x < 2 ^ L) (y : Nat) :
    y ∈ get_on_path_indices L x lv ↔
      y < 2 ^ L ∧ get_index L y lv = get_index L x lv := by
  have hgi : ∀ z : Nat, (get_index L z lv = get_index L x lv ↔
      (2 ^ L + z) / 2 ^ (L - lv) = (2 ^ L + x) / 2 ^ (L - lv)) := by
    intro z
    rw [get_index_eq_div L z lv hL, get_index_eq_div L x lv hL]
    have hq1 := quot_lb L z lv hlv
    have hq2 := quot_lb L x lv hlv
    have hp : 0 < 2 ^ lv := Nat.pos_pow_of_pos _ (by norm_num)
    omega
  by_cases hlvL : lv = L
  · have hsing : get_on_path_indices L x lv = [x] := by
      simp [get_on_path_indices, hlvL]
    rw [hsing, List.mem_singleton, hgi y, shifted_div_eq_iff L (L - lv) y x (by omega)]
    have hone : 2 ^ (L - lv) = 1 := by rw [hlvL, Nat.sub_self, pow_zero]
    rw [hone]
    simp only [Nat.div_one]
    constructor
    · rintro rfl
      exact ⟨hx, rfl⟩
    · rintro ⟨_, h⟩
      exact h
  · have hd1 : 1 ≤ L - lv := by omega
    have h2d : 0 < 2 ^ (L - lv) := Nat.pos_pow_of_pos _ (by norm_num)
    have hmask : (1 <<< (L - lv)) - 1 = 2 ^ (L - lv) - 1 := by rw [Nat.one_shiftLeft]
    have hmem : get_on_path_indices L x lv =
        List.range' (2 ^ (L - lv) * (x / 2 ^ (L - lv))) (2 ^ (L - lv)) := by
      unfold get_on_path_indices
      rw [if_neg hlvL]
      simp only [hmask, natLdiff_eq_ldiff, ldiff_two_pow_sub_one, lor_two_pow_sub_one]
      congr 1
      omega
    have hstop : 2 ^ (L - lv) * (x / 2 ^ (L - lv)) + 2 ^ (L - lv) ≤ 2 ^ L := by
      have hq : x / 2 ^ (L - lv) < 2 ^ (L - (L - lv)) := by
        rw [Nat.div_lt_iff_lt_mul h2d, ← pow_add]
        have he : L - (L - lv) + (L - lv) = L := by omega
        rw [he]
        exact hx
      calc 2 ^ (L - lv) * (x / 2 ^ (L - lv)) + 2 ^ (L - lv)
          = 2 ^ (L - lv) * (x / 2 ^ (L - lv) + 1) := by ring
        _ ≤ 2 ^ (L - lv) * 2 ^ (L - (L - lv)) := Nat.mul_le_mul_left _ hq
        _ = 2 ^ L := by
            rw [← pow_add]
            congr 1
            omega
    rw [hmem, List.mem_range'_1, hgi y, shifted_div_eq_iff L (L - lv) y x (by omega),
      ← div_eq_iff_window (2 ^ (L - lv)) (x / 2 ^ (L - lv)) y h2d]
    constructor
    · rintro ⟨h1, h2⟩
      exact ⟨by omega, h1, h2⟩
    · rintro ⟨_, h1, h2⟩
      exact ⟨h1, h2⟩

/-- Members of an on-path set are leaf labels. -/
theorem mem_get_on_path_indices_lt (L x lv : Nat) (hL : 0 < L) (hlv : lv ≤ L)
    (hx : x < 2 ^ L) (y : Nat) (hy : y ∈ get_on_path_indices L x lv) :
    y < 2 ^ L :=
  ((mem_get_on_path_indices L x lv hL hlv hx y).1 hy).1

/-- The implicit-heap parent: root `0`, children of `i` are `2i+1`, `2i+2`. -/
theorem heapParent_get_index (L x lv : Nat) (hL : 0 < L) (hlv : lv < L) :
    heapParent (get_index L x (lv + 1)) = get_index L x lv := by
  rw [get_index_eq_div L x (lv + 1) hL, get_index_eq_div L x lv hL]
  set q := (2 ^ L + x) / 2 ^ (L - (lv + 1)) with hqdef
  have hq2 : 2 ≤ q := by
    have h1 := quot_lb L x (lv + 1) (by omega)
    have h2 : 2 ≤ 2 ^ (lv + 1) := by
      have : 2 ^ 1 ≤ 2 ^ (lv + 1) := Nat.pow_le_pow_right (by norm_num) (by omega)
      simpa using this
    omega
  have hhalf : q / 2 = (2 ^ L + x) / 2 ^ (L - lv) := by
    rw [hqdef, Nat.div_div_eq_div_mul]
    congr 1
    rw [← pow_succ]
    congr 1
    omega
  have hk : heapParent (q - 1) = q / 2 - 1 := by
    unfold heapParent
    have hmod := Nat.div_add_mod q 2
    have hmlt : q % 2 < 2 := Nat.mod_lt _ (by norm_num)
    have hstep : q - 1 - 1 = 2 * (q / 2 - 1) + q % 2 := by omega
    rw [hstep, Nat.mul_add_div (by norm_num)]
    omega
  rw [hk, hhalf]

/-- `get_index L x lv` is the `(L - lv)`-fold heap-parent of the leaf bucket. -/
theorem get_index_ancestor (L x lv : Nat) (hL : 0 < L) (hlv : lv ≤ L) :
    heapParent^[L - lv] (get_index L x L) = get_index L x lv := by
  have main : ∀ d, d ≤ L → heapParent^[d] (get_index L x L) = get_index L x (L - d) := by
    intro d
    induction d with
    | zero => intro _; simp
    | succ d ih =>
      intro hd
      rw [Function.iterate_succ_apply', ih (by omega)]
      have h1 : L - d = (L - (d + 1)) + 1 := by omega
      rw [h1, heapParent_get_index L x (L - (d + 1)) hL (by omega)]
  have := main (L - lv) (by omega)
  rwa [Nat.sub_sub_self hlv] at this

/-! ## Stash (association list) lemmas -/

theorem stashGet_mem {st : List (Int × Int)} {k v : Int}
    (h : stashGet st k = some v) : (k, v) ∈ st := by
  unfold stashGet at h
  obtain ⟨p, hp, hv⟩ := Option.map_eq_some'.1 h
  have hk : p.1 = k := by
    have := List.find?_some hp
    simpa using this
  have hm := List.mem_of_find?_eq_some hp
  have : (k, v) = p := by
    cases p
    simp_all
  rwa [this]

theorem mem_keys_iff_stashGet {st : List (Int × Int)} {k : Int} :
    k ∈ st.map Prod.fst ↔ ∃ v, stashGet st k = some v := by
  constructor
  · intro h
    obtain ⟨p, hp, hk⟩ := List.mem_map.1 h
    have hs : (st.find? (fun q => q.1 == k)).isSome := by
      rw [List.find?_isSome]
      exact ⟨p, hp, by simp [hk]⟩
    obtain ⟨q, hq⟩ := Option.isSome_iff_exists.1 hs
    exact ⟨q.2, by simp [stashGet, hq]⟩
  · rintro ⟨v, hv⟩
    exact List.mem_map.2 ⟨(k, v), stashGet_mem hv, rfl⟩

theorem stashGet_of_mem_nodup {st : List (Int × Int)} {k v : Int}
    (hnd : (st.map Prod.fst).Nodup) (h : (k, v) ∈ st) :
    stashGet st k = some v := by
  induction st with
  | nil => cases h
  | cons p rest ih =>
    rcases List.mem_cons.1 h with heq | htl
    · subst heq
      simp [stashGet]
    · have hk : p.1 ≠ k := by
        intro hc
        have : k ∈ rest.map Prod.fst := List.mem_map.2 ⟨(k, v), htl, rfl⟩
        simp only [List.map_cons, List.nodup_cons] at hnd
        exact hnd.1 (hc ▸ this)
      have hnd' : (rest.map Prod.fst).Nodup := by
        simp only [List.map_cons, List.nodup_cons] at hnd
        exact hnd.2
      simp only [stashGet, List.find?_cons]
      rw [show (p.1 == k) = false by simp [hk]]
      exact ih hnd' htl

theorem stashGet_cons (q : Int × Int) (rest : List (Int × Int)) (k : Int) :
    stashGet (q :: rest) k = if q.1 == k then some q.2 else stashGet rest k := by
  cases h : (q.1 == k) with
  | true => simp [stashGet, List.find?_cons, h]
  | false => simp [stashGet, List.find?_cons, h]

theorem stashGet_stashInsert (st : List (Int × Int)) (k v k' : Int) :
    stashGet (stashInsert st k v) k' =
      if k' = k then some v else stashGet st k' := by
  unfold stashInsert
  by_cases hany : st.any (fun p => p.1 == k)
  · rw [if_pos hany]
    rw [List.any_eq_true] at hany
    obtain ⟨p0, hp0, hp0k⟩ := hany
    by_cases hk : k' = k
    · subst hk
      rw [if_pos rfl]
      induction st with
      | nil => cases hp0
      | cons q rest ih =>
        rw [List.map_cons, stashGet_cons]
        by_cases hq : q.1 == k'
        · rw [if_pos hq]
          simp
        · rw [if_neg hq, if_neg (by simpa using hq)]
          rcases List.mem_cons.1 hp0 with heq | htl
          · exfalso
            rw [heq] at hp0k
            exact hq hp0k
          · exact ih htl
    · rw [if_neg hk]
      clear hp0 hp0k
      induction st with
      | nil => simp
      | cons q rest ih =>
        rw [List.map_cons, stashGet_cons, stashGet_cons]
        by_cases hq : q.1 == k
        · rw [if_pos hq]
          have h1 : (((k, v) : Int × Int).1 == k') = false := by
            simp only [beq_eq_false_iff_ne, ne_eq]
            exact fun hc => hk hc.symm
          have h2 : (q.1 == k') = false := by
            simp only [beq_iff_eq] at hq
            simp only [beq_eq_false_iff_ne, ne_eq, hq]
            exact fun hc => hk hc.symm
          rw [h1, h2, if_neg (by simp), if_neg (by simp)]
          exact ih
        · rw [if_neg hq]
          by_cases hq' : q.1 == k'
          · rw [if_pos hq', if_pos hq']
          · rw [if_neg hq', if_neg hq']
            exact ih
  · rw [if_neg hany]
    have hnone : st.find? (fun p => p.1 == k) = none := by
      rw [List.find?_eq_none]
      intro p hp hc
      exact hany (List.any_eq_true.2 ⟨p, hp, hc⟩)
    by_cases hk : k' = k
    · subst hk
      rw [if_pos rfl]
      simp [stashGet, List.find?_append, hnone]
    · rw [if_neg hk]
      simp only [stashGet, List.find?_append]
      cases hf : st.find? (fun p => p.1 == k') with
      | some q => simp
      | none =>
        have h1 : (((k, v) : Int × Int).1 == k') = false := by
          simp only [beq_eq_false_iff_ne, ne_eq]
          exact fun hc => hk hc.symm
        simp [List.find?_cons, h1]

theorem mem_stashInsert {st : List (Int × Int)} {k v : Int} {p : Int × Int}
    (h : p ∈ stashInsert st k v) : p = (k, v) ∨ (p ∈ st ∧ p.1 ≠ k) := by
  unfold stashInsert at h
  by_cases hany : st.any (fun q => q.1 == k)
  · rw [if_pos hany] at h
    obtain ⟨q, hq, hfq⟩ := List.mem_map.1 h
    by_cases hqk : q.1 == k
    · left
      rw [if_pos hqk] at hfq
      exact hfq.symm
    · right
      rw [if_neg hqk] at hfq
      subst hfq
      exact ⟨hq, by simpa using hqk⟩
  · rw [if_neg hany] at h
    rcases List.mem_append.1 h with hm | hm
    · right
      refine ⟨hm, ?_⟩
      intro hc
      exact hany (List.any_eq_true.2 ⟨p, hm, by simp [hc]⟩)
    · left
      simpa using hm

theorem stashInsert_self_mem (st : List (Int × Int)) (k v : Int) :
    (k, v) ∈ stashInsert st k v := by
  have h := stashGet_stashInsert st k v k
  rw [if_pos rfl] at h
  exact stashGet_mem h

theorem stashInsert_keys_nodup {st : List (Int × Int)} {k v : Int}
    (h : (st.map Prod.fst).Nodup) :
    ((stashInsert st k v).map Prod.fst).Nodup := by
  unfold stashInsert
  by_cases hany : st.any (fun q => q.1 == k)
  · rw [if_pos hany]
    have hkeys : (st.map (fun p => if p.1 == k then (k, v) else p)).map Prod.fst
        = st.map Prod.fst := by
      rw [List.map_map]
      apply List.map_congr_left
      intro p _
      by_cases hp : p.1 = k
      · simp [hp]
      · simp [hp]
    rw [hkeys]
    exact h
  · rw [if_neg hany, List.map_append, List.nodup_append]
    refine ⟨h, by simp, ?_⟩
    intro a ha hb
    simp only [List.map_cons, List.map_nil, List.mem_singleton] at hb
    subst hb
    obtain ⟨p, hp, hpk⟩ := List.mem_map.1 ha
    exact hany (List.any_eq_true.2 ⟨p, hp, by simp [hpk]⟩)

theorem mem_keys_stashInsert {st : List (Int × Int)} {k v k' : Int} :
    k' ∈ (stashInsert st k v).map Prod.fst ↔ k' = k ∨ k' ∈ st.map Prod.fst := by
  rw [mem_keys_iff_stashGet, mem_keys_iff_stashGet]
  rw [show ∀ w, stashGet (stashInsert st k v) w =
      if w = k then some v else stashGet st w from fun w => stashGet_stashInsert st k v w]
  by_cases hk : k' = k <;> simp [hk]

theorem mem_stashRemove {st : List (Int × Int)} {k : Int} {p : Int × Int} :
    p ∈ stashRemove st k ↔ p ∈ st ∧ p.1 ≠ k := by
  unfold stashRemove
  rw [List.mem_filter]
  simp

theorem stashRemove_keys_nodup {st : List (Int × Int)} {k : Int}
    (h : (st.map Prod.fst).Nodup) :
    ((stashRemove st k).map Prod.fst).Nodup := by
  unfold stashRemove
  exact h.sublist (List.Sublist.map _ (List.filter_sublist st))

theorem stashGet_stashRemove {st : List (Int × Int)} {k k' : Int} (h : k' ≠ k) :
    stashGet (stashRemove st k) k' = stashGet st k' := by
  have hkk : ∀ q : Int × Int, (q.1 == k) = true → (q.1 == k') = false := by
    intro q hq
    simp only [beq_iff_eq] at hq
    simp only [beq_eq_false_iff_ne, ne_eq, hq]
    exact fun hc => h hc.symm
  induction st with
  | nil => simp [stashRemove]
  | cons q rest ih =>
    unfold stashRemove at ih ⊢
    rw [List.filter_cons]
    cases hq : (q.1 == k) with
    | true =>
      rw [show (q.1 != k) = false by simp [bne, hq]]
      rw [if_neg (by simp), stashGet_cons, hkk q hq]
      rw [if_neg (by simp)]
      exact ih
    | false =>
      rw [show (q.1 != k) = true by simp [bne, hq]]
      rw [if_pos rfl, stashGet_cons, stashGet_cons]
      cases hq' : (q.1 == k') with
      | true => rw [if_pos rfl, if_pos rfl]
      | false =>
        rw [if_neg (by simp), if_neg (by simp)]
        exact ih

/-! ## `insertBlocks` (stash refresh) lemmas -/

theorem insertBlocks_nil (st : List (Int × Int)) : insertBlocks st [] = st := rfl

theorem insertBlocks_cons (st : List (Int × Int)) (b : Block) (bs : List Block) :
    insertBlocks st (b :: bs) =
      insertBlocks (if b.index == -1 then st else stashInsert st b.index b.value) bs := by
  simp [insertBlocks]

theorem mem_insertBlocks {st : List (Int × Int)} {bs : List Block} {p : Int × Int}
    (h : p ∈ insertBlocks st bs) :
    p ∈ st ∨ ∃ b ∈ bs, b.index = p.1 ∧ b.value = p.2 ∧ p.1 ≠ -1 := by
  induction bs generalizing st with
  | nil => exact Or.inl h
  | cons b rest ih =>
    rw [insertBlocks_cons] at h
    by_cases hb : b.index == -1
    · rw [if_pos hb] at h
      rcases ih h with hm | ⟨b', hb', hprop⟩
      · exact Or.inl hm
      · exact Or.inr ⟨b', List.mem_cons_of_mem _ hb', hprop⟩
    · rw [if_neg hb] at h
      rcases ih h with hm | ⟨b', hb', hprop⟩
      · rcases mem_stashInsert hm with heq | ⟨hmem, _⟩
        · subst heq
          exact Or.inr ⟨b, List.mem_cons_self _ _, rfl, rfl, by simpa using hb⟩
        · exact Or.inl hmem
      · exact Or.inr ⟨b', List.mem_cons_of_mem _ hb', hprop⟩

theorem insertBlocks_keys_nodup {st : List (Int × Int)} {bs : List Block}
    (h : (st.map Prod.fst).Nodup) :
    ((insertBlocks st bs).map Prod.fst).Nodup := by
  induction bs generalizing st with
  | nil => exact h
  | cons b rest ih =>
    rw [insertBlocks_cons]
    by_cases hb : b.index == -1
    · rw [if_pos hb]
      exact ih h
    · rw [if_neg hb]
      exact ih (stashInsert_keys_nodup h)

theorem insertBlocks_keys_mono {st : List (Int × Int)} {bs : List Block} {k : Int}
    (h : k ∈ st.map Prod.fst) : k ∈ (insertBlocks st bs).map Prod.fst := by
  induction bs generalizing st with
  | nil => exact h
  | cons b rest ih =>
    rw [insertBlocks_cons]
    by_cases hb : b.index == -1
    · rw [if_pos hb]
      exact ih h
    · rw [if_neg hb]
      exact ih (mem_keys_stashInsert.2 (Or.inr h))

theorem insertBlocks_keys_of_block {st : List (Int × Int)} {bs : List Block}
    {b : Block} (hb : b ∈ bs) (hne : b.index ≠ -1) :
    b.index ∈ (insertBlocks st bs).map Prod.fst := by
  induction bs generalizing st with
  | nil => cases hb
  | cons b' rest ih =>
    rw [insertBlocks_cons]
    rcases List.mem_cons.1 hb with heq | htl
    · subst heq
      rw [if_neg (by simpa using hne)]
      exact insertBlocks_keys_mono (mem_keys_stashInsert.2 (Or.inl rfl))
    · by_cases hb' : b'.index == -1
      · rw [if_pos hb']
        exact ih htl
      · rw [if_neg hb']
        exact ih htl

theorem insertBlocks_keys_sub {st : List (Int × Int)} {bs : List Block} {k : Int}
    (h : k ∈ (insertBlocks st bs).map Prod.fst) :
    k ∈ st.map Prod.fst ∨ ∃ b ∈ bs, b.index = k ∧ k ≠ -1 := by
  obtain ⟨p, hp, hk⟩ := List.mem_map.1 h
  rcases mem_insertBlocks hp with hm | ⟨b, hb, h1, _, h3⟩
  · exact Or.inl (List.mem_map.2 ⟨p, hm, hk⟩)
  · exact Or.inr ⟨b, hb, by rw [h1, hk], by rwa [hk] at h3⟩

/-! ## Server lemmas -/

theorem read_block_ok (srv : ServerState) (idxs : List Nat)
    (h : ∀ i ∈ idxs, i < srv.data_store.length) :
    read_block srv idxs
      = .ok (idxs.map (fun i => srv.data_store.getD i [])).flatten := by
  induction idxs with
  | nil => simp [read_block]
  | cons i rest ih =>
    have hi : i < srv.data_store.length := h i (List.mem_cons_self _ _)
    have hget : srv.data_store.get? i = some (srv.data_store.getD i []) := by
      rw [List.getD_eq_getD_get?]
      cases hg : srv.data_store.get? i with
      | none =>
        rw [List.get?_eq_none] at hg
        omega
      | some b => simp
    rw [read_block, hget, ih (fun j hj => h j (List.mem_cons_of_mem _ hj))]
    rfl

/-- The length of a flattened list of `z`-sized chunks. -/
theorem flatten_length_const {α : Type} (z : Nat) (gs : List (List α))
    (hg : ∀ g ∈ gs, g.length = z) : gs.flatten.length = gs.length * z := by
  induction gs with
  | nil => simp
  | cons g rest ih =>
    rw [List.flatten_cons, List.length_append, hg g (List.mem_cons_self _ _),
      ih (fun g' h' => hg g' (List.mem_cons_of_mem _ h'))]
    simp only [List.length_cons]
    ring

/-- Extracting the `j`-th `z`-sized chunk of a flattened list. -/
theorem flatten_drop_take {α : Type} (z : Nat) (gs : List (List α))
    (hg : ∀ g ∈ gs, g.length = z) :
    ∀ j (hj : j < gs.length), (gs.flatten.drop (j * z)).take z = gs.get ⟨j, hj⟩ := by
  induction gs with
  | nil =>
    intro j hj
    simp at hj
  | cons g rest ih =>
    intro j hj
    cases j with
    | zero =>
      simp only [List.flatten_cons, Nat.zero_mul, List.drop_zero]
      rw [List.take_left' (hg g (List.mem_cons_self _ _))]
      rfl
    | succ j' =>
      have hj' : j' < rest.length := by simpa using hj
      rw [List.flatten_cons,
        show (j' + 1) * z = g.length + j' * z by
          rw [hg g (List.mem_cons_self _ _)]; ring,
        ← List.drop_drop, List.drop_left]
      exact ih (fun g' h' => hg g' (List.mem_cons_of_mem _ h')) j' hj'

/-- One step of the write loop at a resolvable index. -/
theorem write_block_loop_cons (bsz i : Nat) (rest : List Nat) (blocks : List Block)
    (store : List (List Block)) (bucket : List Block)
    (hbucket : store.get? i = some bucket) :
    write_block_loop bsz (i :: rest) blocks store
      = if bsz ≤ blocks.length ∧ bsz ≤ bucket.length then
          write_block_loop bsz rest (blocks.drop bsz)
            (store.set i (blocks.take bsz ++ bucket.drop bsz))
        else (store, .error .panic) := by
  rw [write_block_loop.eq_def]
  simp only [hbucket]

/-- One step of the write loop at an out-of-range index. -/
theorem write_block_loop_cons_oob (bsz i : Nat) (rest : List Nat) (blocks : List Block)
    (store : List (List Block)) (hbucket : store.get? i = none) :
    write_block_loop bsz (i :: rest) blocks store = (store, .error .notFound) := by
  rw [write_block_loop.eq_def]
  simp only [hbucket]

/-- The write loop succeeds, and overwrites exactly the listed buckets with
the successive `bsz`-sized segments of `blocks`, when every index is in
range, every bucket is full-sized, and enough blocks are supplied. -/
theorem write_block_loop_ok (bsz : Nat) (idxs : List Nat) :
    ∀ (blocks : List Block) (store : List (List Block)),
    (∀ i ∈ idxs, i < store.length) → (∀ bu ∈ store, bu.length = bsz) →
    idxs.length * bsz ≤ blocks.length → idxs.Nodup →
    ∃ store', write_block_loop bsz idxs blocks store = (store', .ok ()) ∧
      store'.length = store.length ∧
      (∀ bu ∈ store', bu.length = bsz) ∧
      (∀ b, b ∉ idxs → store'.get? b = store.get? b) ∧
      ∀ j (hj : j < idxs.length),
        store'.get? (idxs.get ⟨j, hj⟩) = some ((blocks.drop (j * bsz)).take bsz) := by
  induction idxs with
  | nil =>
    intro blocks store hin hbl _ _
    exact ⟨store, rfl, rfl, hbl, fun _ _ => rfl, fun j hj => by simp at hj⟩
  | cons i rest ih =>
    intro blocks store hin hbl hlen hnd
    have hi : i < store.length := hin i (List.mem_cons_self _ _)
    obtain ⟨bucket, hbucket⟩ : ∃ bu, store.get? i = some bu := by
      cases hg : store.get? i with
      | none =>
        rw [List.get?_eq_none] at hg
        omega
      | some b => exact ⟨b, rfl⟩
    have hbm : bucket ∈ store := List.get?_mem hbucket
    have hblen : bucket.length = bsz := hbl bucket hbm
    have hmul : (rest.length + 1) * bsz = rest.length * bsz + bsz := by ring
    have hbsz_le : bsz ≤ blocks.length := by
      simp only [List.length_cons] at hlen
      omega
    have hnew : blocks.take bsz ++ bucket.drop bsz = blocks.take bsz := by
      rw [List.drop_eq_nil_of_le (by omega), List.append_nil]
    have hstep : write_block_loop bsz (i :: rest) blocks store
        = write_block_loop bsz rest (blocks.drop bsz) (store.set i (blocks.take bsz)) := by
      rw [write_block_loop_cons bsz i rest blocks store bucket hbucket,
        if_pos ⟨hbsz_le, by omega⟩, hnew]
    obtain ⟨store', heq, hlen', hbl', hoff, hseg⟩ :=
      ih (blocks.drop bsz) (store.set i (blocks.take bsz))
        (fun j hj => by
          rw [List.length_set]
          exact hin j (List.mem_cons_of_mem _ hj))
        (fun bu hbu => by
          rcases List.mem_or_eq_of_mem_set hbu with hm | he
          · exact hbl bu hm
          · rw [he, List.length_take]
            omega)
        (by
          rw [List.length_drop]
          simp only [List.length_cons] at hlen
          omega)
        hnd.of_cons
    refine ⟨store', by rw [hstep]; exact heq, by rw [hlen', List.length_set], hbl', ?_, ?_⟩
    · intro b hb
      have hbne : b ≠ i := fun hc => hb (hc ▸ List.mem_cons_self _ _)
      have hbr : b ∉ rest := fun hc => hb (List.mem_cons_of_mem _ hc)
      rw [hoff b hbr, List.get?_set_ne _ _ (Ne.symm hbne)]
    · intro j hj
      cases j with
      | zero =>
        have hir : i ∉ rest := (List.nodup_cons.1 hnd).1
        rw [show (i :: rest).get ⟨0, hj⟩ = i from rfl, hoff i hir,
          List.get?_set_eq_of_lt _ hi]
        simp
      | succ j' =>
        have hj' : j' < rest.length := by simpa using hj
        rw [show (i :: rest).get ⟨j' + 1, hj⟩ = rest.get ⟨j', hj'⟩ from rfl,
          hseg j' hj', List.drop_drop]
        congr 2
        ring

/-- `write_block` never validates lengths, so it never returns `Invalid`. -/
theorem write_block_loop_never_invalid (bsz : Nat) (idxs : List Nat) :
    ∀ (blocks : List Block) (store : List (List Block)),
    (write_block_loop bsz idxs blocks store).2 ≠ .error .invalid := by
  induction idxs with
  | nil =>
    intro blocks store h
    simp [write_block_loop] at h
  | cons i rest ih =>
    intro blocks store
    cases hg : store.get? i with
    | none =>
      rw [write_block_loop_cons_oob bsz i rest blocks store hg]
      simp
    | some bucket =>
      rw [write_block_loop_cons bsz i rest blocks store bucket hg]
      by_cases hc : bsz ≤ blocks.length ∧ bsz ≤ bucket.length
      · rw [if_pos hc]
        exact ih _ _
      · rw [if_neg hc]
        simp

/-- With in-range indices and full-sized buckets, the write loop panics
exactly when the blocks run out. -/
theorem write_block_loop_status (bsz : Nat) (idxs : List Nat) :
    ∀ (blocks : List Block) (store : List (List Block)),
    (∀ i ∈ idxs, i < store.length) → (∀ bu ∈ store, bu.length = bsz) →
    (write_block_loop bsz idxs blocks store).2 =
      if idxs.length * bsz ≤ blocks.length then .ok () else .error .panic := by
  induction idxs with
  | nil =>
    intro blocks store _ _
    simp [write_block_loop]
  | cons i rest ih =>
    intro blocks store hin hbl
    have hi : i < store.length := hin i (List.mem_cons_self _ _)
    obtain ⟨bucket, hbucket⟩ : ∃ bu, store.get? i = some bu := by
      cases hg : store.get? i with
      | none =>
        rw [List.get?_eq_none] at hg
        omega
      | some b => exact ⟨b, rfl⟩
    have hblen : bucket.length = bsz := hbl bucket (List.get?_mem hbucket)
    have hmul : (rest.length + 1) * bsz = rest.length * bsz + bsz := by ring
    rw [write_block_loop_cons bsz i rest blocks store bucket hbucket]
    by_cases hble : bsz ≤ blocks.length
    · rw [if_pos ⟨hble, by omega⟩]
      rw [ih (blocks.drop bsz) (store.set i (blocks.take bsz ++ bucket.drop bsz))
        (fun j hj => by
          rw [List.length_set]
          exact hin j (List.mem_cons_of_mem _ hj))
        (fun bu hbu => by
          rcases List.mem_or_eq_of_mem_set hbu with hm | he
          · exact hbl bu hm
          · rw [he, List.length_append, List.length_take, List.length_drop]
            omega)]
      rw [List.length_drop]
      simp only [List.length_cons]
      by_cases hc : (rest.length + 1) * bsz ≤ blocks.length
      · rw [if_pos hc, if_pos (by omega)]
      · rw [if_neg hc, if_neg (by omega)]
    · rw [if_neg (by
        intro hc
        exact hble hc.1)]
      simp only [List.length_cons]
      rw [if_neg (by omega)]

/-! ## Eviction-loop lemmas -/

/-- One step of the eligibility scan once the `pmap` lookup resolves. -/
theorem wbSelect_cons (pmap valid : List Nat) (z : Nat) (p : Int × Int)
    (rest : List (Int × Int)) (acc : List Int) (leaf : Nat)
    (hlk : (if 0 ≤ p.1 then pmap.get? p.1.toNat else none) = some leaf) :
    wbSelect pmap valid z (p :: rest) acc =
      if (if valid.contains leaf then acc ++ [p.1] else acc).length = z
      then some (if valid.contains leaf then acc ++ [p.1] else acc)
      else wbSelect pmap valid z rest
        (if valid.contains leaf then acc ++ [p.1] else acc) := by
  by_cases h0 : 0 ≤ p.1
  · rw [if_pos h0] at hlk
    simp only [wbSelect, if_pos h0, hlk, Option.some_bind]
    rfl
  · rw [if_neg h0] at hlk
    cases hlk

/-- The eligibility scan: success and the properties of the picked list. -/
theorem wbSelect_ok (pmap valid : List Nat) (z : Nat) :
    ∀ (st : List (Int × Int)) (acc : List Int),
    (∀ p ∈ st, 0 ≤ p.1 ∧ p.1.toNat < pmap.length) →
    acc.length < z →
    ∃ sel, wbSelect pmap valid z st acc = some sel ∧
      sel.length ≤ z ∧
      (∀ k ∈ sel, k ∈ acc ∨ k ∈ st.map Prod.fst) ∧
      (∀ k ∈ acc, k ∈ sel) ∧
      (∀ k ∈ sel, k ∉ acc →
        ∃ leaf, pmap.get? k.toNat = some leaf ∧ leaf ∈ valid) ∧
      (sel.length < z → ∀ p ∈ st, ∀ leaf, pmap.get? p.1.toNat = some leaf →
        leaf ∈ valid → p.1 ∈ sel) ∧
      ((st.map Prod.fst).Nodup → acc.Nodup → (∀ k ∈ acc, k ∉ st.map Prod.fst) →
        sel.Nodup) := by
  intro st
  induction st with
  | nil =>
    intro acc _ hacc
    refine ⟨acc, rfl, by omega, fun k hk => Or.inl hk, fun k hk => hk, ?_, ?_, ?_⟩
    · intro k hk hnk
      exact absurd hk hnk
    · intro _ p hp
      cases hp
    · intro _ hnd _
      exact hnd
  | cons p rest ih =>
    intro acc hkeys hacc
    obtain ⟨hp0, hplt⟩ := hkeys p (List.mem_cons_self _ _)
    obtain ⟨leaf, hleaf⟩ : ∃ leaf, pmap.get? p.1.toNat = some leaf := by
      cases hg : pmap.get? p.1.toNat with
      | none =>
        rw [List.get?_eq_none] at hg
        omega
      | some w => exact ⟨w, rfl⟩
    have hlk : (if 0 ≤ p.1 then pmap.get? p.1.toNat else none) = some leaf := by
      rw [if_pos hp0, hleaf]
    rw [wbSelect_cons pmap valid z p rest acc leaf hlk]
    by_cases hel : valid.contains leaf
    · simp only [if_pos hel]
      have hlen : (acc ++ [p.1]).length = acc.length + 1 := by simp
      by_cases hbreak : (acc ++ [p.1]).length = z
      · rw [if_pos hbreak]
        refine ⟨acc ++ [p.1], rfl, by omega, ?_, ?_, ?_, ?_, ?_⟩
        · intro k hk
          rcases List.mem_append.1 hk with h | h
          · exact Or.inl h
          · simp only [List.mem_singleton] at h
            exact Or.inr (by
              rw [h]
              exact List.mem_map.2 ⟨p, List.mem_cons_self _ _, rfl⟩)
        · intro k hk
          exact List.mem_append.2 (Or.inl hk)
        · intro k hk hnk
          rcases List.mem_append.1 hk with h | h
          · exact absurd h hnk
          · simp only [List.mem_singleton] at h
            subst h
            refine ⟨leaf, hleaf, ?_⟩
            simpa [List.contains, List.elem_iff] using hel
        · intro hlt
          omega
        · intro hnd hand hdisj
          rw [List.nodup_append]
          refine ⟨hand, by simp, ?_⟩
          intro a ha hb
          simp only [List.mem_singleton] at hb
          subst hb
          exact hdisj _ ha (List.mem_map.2 ⟨p, List.mem_cons_self _ _, rfl⟩)
      · rw [if_neg hbreak]
        have hacclt : (acc ++ [p.1]).length < z := by omega
        obtain ⟨sel, hsel, hlen', hsub, haccsub, helig, hcomplete, hnd⟩ :=
          ih (acc ++ [p.1])
            (fun q hq => hkeys q (List.mem_cons_of_mem _ hq)) hacclt
        refine ⟨sel, hsel, hlen', ?_, ?_, ?_, ?_, ?_⟩
        · intro k hk
          rcases hsub k hk with h | h
          · rcases List.mem_append.1 h with h1 | h1
            · exact Or.inl h1
            · simp only [List.mem_singleton] at h1
              exact Or.inr (by
                rw [h1]
                exact List.mem_map.2 ⟨p, List.mem_cons_self _ _, rfl⟩)
          · exact Or.inr (List.map_cons Prod.fst p rest ▸ List.mem_cons_of_mem _ h)
        · intro k hk
          exact haccsub k (List.mem_append.2 (Or.inl hk))
        · intro k hk hnk
          by_cases hkp : k = p.1
          · subst hkp
            refine ⟨leaf, hleaf, ?_⟩
            simpa [List.contains, List.elem_iff] using hel
          · exact helig k hk (by
              intro hc
              rcases List.mem_append.1 hc with h1 | h1
              · exact hnk h1
              · simp only [List.mem_singleton] at h1
                exact hkp h1)
        · intro hlt q hq leaf' hleaf' hval
          rcases List.mem_cons.1 hq with heq | htl
          · subst heq
            exact haccsub _ (List.mem_append.2 (Or.inr (List.mem_singleton.2 rfl)))
          · exact hcomplete hlt q htl leaf' hleaf' hval
        · intro hndk hand hdisj
          have hpk : p.1 ∉ acc := fun hc =>
            hdisj p.1 hc (List.mem_map.2 ⟨p, List.mem_cons_self _ _, rfl⟩)
          have hndrest : (rest.map Prod.fst).Nodup := by
            simp only [List.map_cons, List.nodup_cons] at hndk
            exact hndk.2
          apply hnd hndrest
          · rw [List.nodup_append]
            refine ⟨hand, by simp, ?_⟩
            intro a ha hb
            simp only [List.mem_singleton] at hb
            subst hb
            exact hpk ha
          · intro k hk
            rcases List.mem_append.1 hk with h1 | h1
            · intro hc
              exact hdisj k h1 (List.map_cons Prod.fst p rest ▸ List.mem_cons_of_mem _ hc)
            · simp only [List.mem_singleton] at h1
              subst h1
              simp only [List.map_cons, List.nodup_cons] at hndk
              exact hndk.1
    · simp only [if_neg hel]
      have hacclt : acc.length < z := hacc
      by_cases hbreak : acc.length = z
      · omega
      · rw [if_neg hbreak]
        obtain ⟨sel, hsel, hlen', hsub, haccsub, helig, hcomplete, hnd⟩ :=
          ih acc (fun q hq => hkeys q (List.mem_cons_of_mem _ hq)) hacclt
        refine ⟨sel, hsel, hlen', ?_, haccsub, helig, ?_, ?_⟩
        · intro k hk
          rcases hsub k hk with h | h
          · exact Or.inl h
          · exact Or.inr (List.map_cons Prod.fst p rest ▸ List.mem_cons_of_mem _ h)
        · intro hlt q hq leaf' hleaf' hval
          rcases List.mem_cons.1 hq with heq | htl
          · subst heq
            exfalso
            rw [hleaf] at hleaf'
            apply hel
            have hv : leaf ∈ valid := by
              cases hleaf'
              exact hval
            simpa [List.contains, List.elem_iff] using hv
          · exact hcomplete hlt q htl leaf' hleaf' hval
        · intro hndk hand hdisj
          have hndrest : (rest.map Prod.fst).Nodup := by
            simp only [List.map_cons, List.nodup_cons] at hndk
            exact hndk.2
          exact hnd hndrest hand (fun k hk hc =>
            hdisj k hk (List.map_cons Prod.fst p rest ▸ List.mem_cons_of_mem _ hc))

theorem mem_keys_stashRemove {st : List (Int × Int)} {k k' : Int}
    (h : k' ∈ st.map Prod.fst) (hne : k' ≠ k) :
    k' ∈ (stashRemove st k).map Prod.fst := by
  obtain ⟨p, hp, hpk⟩ := List.mem_map.1 h
  exact List.mem_map.2 ⟨p, mem_stashRemove.2 ⟨hp, by rwa [hpk]⟩, hpk⟩

/-- The block-emission loop: success and the properties of the emitted
blocks and the remaining stash. -/
theorem wbEmit_ok :
    ∀ (sel : List Int) (st : List (Int × Int)),
    (st.map Prod.fst).Nodup → sel.Nodup →
    (∀ k ∈ sel, k ∈ st.map Prod.fst) →
    ∃ r, wbEmit sel st = some r ∧
      r.2 = st.filter (fun p => !sel.contains p.1) ∧
      r.1.length = sel.length ∧
      (∀ blk ∈ r.1, (blk.index, blk.value) ∈ st ∧ blk.index ∈ sel) ∧
      (∀ k ∈ sel, ∀ v, stashGet st k = some v → (Block.mk k v) ∈ r.1) := by
  intro sel
  induction sel with
  | nil =>
    intro st hnd _ _
    refine ⟨([], st), rfl, ?_, rfl, by simp, by simp⟩
    have : ∀ p ∈ st, (!([] : List Int).contains p.1) = true := by
      intro p _
      simp [List.contains]
    rw [List.filter_eq_self.2 this]
  | cons a rest ih =>
    intro st hnd hselnd hsel
    have ha : a ∈ st.map Prod.fst := hsel a (List.mem_cons_self _ _)
    obtain ⟨v, hv⟩ := mem_keys_iff_stashGet.1 ha
    have hanr : a ∉ rest := (List.nodup_cons.1 hselnd).1
    have hrest : ∀ k ∈ rest, k ∈ (stashRemove st a).map Prod.fst := by
      intro k hk
      have hka : k ≠ a := fun hc => hanr (hc ▸ hk)
      exact mem_keys_stashRemove (hsel k (List.mem_cons_of_mem _ hk)) hka
    obtain ⟨r, hr, hfil, hlen, hmem, hall⟩ :=
      ih (stashRemove st a) (stashRemove_keys_nodup hnd) hselnd.of_cons hrest
    refine ⟨(⟨a, v⟩ :: r.1, r.2), ?_, ?_, by simp [hlen], ?_, ?_⟩
    · simp only [wbEmit, hv, hr, Option.some_bind]
      rfl
    · show r.2 = st.filter (fun p => !(a :: rest).contains p.1)
      rw [hfil]
      unfold stashRemove
      rw [List.filter_filter]
      apply List.filter_congr
      intro p _
      show (!rest.contains p.1 && (p.1 != a)) = !((a :: rest).contains p.1)
      rw [List.contains_cons]
      cases hpa : (p.1 == a) with
      | true => simp [bne, hpa]
      | false => simp [bne, hpa]
    · intro blk hblk
      rcases List.mem_cons.1 hblk with heq | htl
      · subst heq
        exact ⟨stashGet_mem hv, List.mem_cons_self _ _⟩
      · obtain ⟨h1, h2⟩ := hmem blk htl
        exact ⟨(mem_stashRemove.1 h1).1, List.mem_cons_of_mem _ h2⟩
    · intro k hk v' hv'
      rcases List.mem_cons.1 hk with heq | htl
      · subst heq
        rw [hv] at hv'
        cases hv'
        exact List.mem_cons_self _ _
      · have hka : k ≠ a := fun hc => hanr (hc ▸ htl)
        have hget' : stashGet (stashRemove st a) k = some v' := by
          rw [stashGet_stashRemove hka]
          exact hv'
        exact List.mem_cons_of_mem _ (hall k htl v' hget')

/-- Unfolding the level loop once. -/
theorem wbLevels_cons (L z : Nat) (pmap : List Nat) (x lv : Nat)
    (rest : List Nat) (s : WBOut) :
    wbLevels L z pmap x (lv :: rest) s =
      (wbSelect pmap (get_on_path_indices L x lv) z s.stash []).bind fun sel =>
        (wbEmit sel s.stash).bind fun r =>
          wbLevels L z pmap x rest
            ⟨r.2, s.indices ++ [get_index L x lv],
             s.blocks ++ (r.1 ++ List.replicate (z - r.1.length) ⟨-1, -1⟩)⟩ := rfl

theorem int_contains_iff (l : List Int) (a : Int) : l.contains a = true ↔ a ∈ l := by
  simp [List.contains, List.elem_iff]

/-- The level loop of `write_back_stash`: success, request shape, and the
eviction invariants.  `glv` pairs each emitted bucket with its level. -/
theorem wbLevels_ok (L z : Nat) (pmap : List Nat) (x : Nat) (hz : 0 < z) :
    ∀ (lvs : List Nat) (S : List (Int × Int)) (I : List Nat) (B : List Block),
    (∀ p ∈ S, 0 ≤ p.1 ∧ p.1.toNat < pmap.length) →
    (S.map Prod.fst).Nodup →
    ∃ (out : WBOut) (glv : List (List Block × Nat)),
      wbLevels L z pmap x lvs ⟨S, I, B⟩ = some out ∧
      glv.map Prod.snd = lvs ∧
      out.indices = I ++ lvs.map (get_index L x) ∧
      out.blocks = B ++ (glv.map Prod.fst).flatten ∧
      (∀ pr ∈ glv, pr.1.length = z) ∧
      (∀ p ∈ out.stash, p ∈ S) ∧
      (out.stash.map Prod.fst).Nodup ∧
      (∀ p ∈ S, p ∈ out.stash ∨ ∃ pr ∈ glv, Block.mk p.1 p.2 ∈ pr.1) ∧
      (∀ pr ∈ glv, ∀ blk ∈ pr.1, blk.index ≠ -1 →
        (blk.index, blk.value) ∈ S ∧
        ∃ leaf, pmap.get? blk.index.toNat = some leaf ∧
          leaf ∈ get_on_path_indices L x pr.2) ∧
      (∀ p ∈ out.stash, ∀ pr ∈ glv, (∃ blk ∈ pr.1, blk.index = -1) →
        ∀ leaf, pmap.get? p.1.toNat = some leaf →
          leaf ∉ get_on_path_indices L x pr.2) := by
  intro lvs
  induction lvs with
  | nil =>
    intro S I B hkeys hnd
    exact ⟨⟨S, I, B⟩, [], rfl, rfl, by simp, by simp, by simp, fun p hp => hp, hnd,
      fun p hp => Or.inl hp, by simp, by simp⟩
  | cons lv rest ih =>
    intro S I B hkeys hnd
    obtain ⟨sel, hsel, hsellen, hselsub, haccsub, helig, hcomplete, hselnd⟩ :=
      wbSelect_ok pmap (get_on_path_indices L x lv) z S [] hkeys (by simpa using hz)
    have hselnd' : sel.Nodup := hselnd hnd List.nodup_nil (by simp)
    have hselkeys : ∀ k ∈ sel, k ∈ S.map Prod.fst := by
      intro k hk
      rcases hselsub k hk with h | h
      · cases h
      · exact h
    obtain ⟨r, hr, hfil, hrlen, hrmem, hrall⟩ := wbEmit_ok sel S hnd hselnd' hselkeys
    have hrlenz : r.1.length ≤ z := by omega
    have hpadlen : (r.1 ++ List.replicate (z - r.1.length) (⟨-1, -1⟩ : Block)).length
        = z := by
      rw [List.length_append, List.length_replicate]
      omega
    have hkeys' : ∀ p ∈ r.2, 0 ≤ p.1 ∧ p.1.toNat < pmap.length := by
      intro p hp
      rw [hfil] at hp
      exact hkeys p (List.mem_filter.1 hp).1
    have hnd' : (r.2.map Prod.fst).Nodup := by
      rw [hfil]
      exact ((List.filter_sublist S).map Prod.fst).nodup hnd
    obtain ⟨out, glv, hout, hsnd, hind, hblk, hglen, hsub, houtnd, hcov, hval, hrem⟩ :=
      ih r.2 (I ++ [get_index L x lv])
        (B ++ (r.1 ++ List.replicate (z - r.1.length) ⟨-1, -1⟩)) hkeys' hnd'
    have hsubS : ∀ p ∈ out.stash, p ∈ S := by
      intro p hp
      have h1 := hsub p hp
      rw [hfil] at h1
      exact (List.mem_filter.1 h1).1
    have hnotsel : ∀ p ∈ out.stash, p.1 ∉ sel := by
      intro p hp hc
      have h1 := hsub p hp
      rw [hfil] at h1
      have h2 := (List.mem_filter.1 h1).2
      rw [Bool.not_eq_true'] at h2
      rw [(int_contains_iff sel p.1).2 hc] at h2
      simp at h2
    refine ⟨out, (r.1 ++ List.replicate (z - r.1.length) ⟨-1, -1⟩, lv) :: glv,
      ?_, ?_, ?_, ?_, ?_, hsubS, houtnd, ?_, ?_, ?_⟩
    · simp only [wbLevels_cons, hsel, hr, Option.some_bind]
      exact hout
    · simp [hsnd]
    · rw [hind]
      simp
    · rw [hblk]
      simp
    · intro pr hpr
      rcases List.mem_cons.1 hpr with heq | htl
      · rw [heq]
        exact hpadlen
      · exact hglen pr htl
    · intro p hp
      by_cases hpin : p.1 ∈ sel
      · right
        have hget : stashGet S p.1 = some p.2 := stashGet_of_mem_nodup hnd hp
        refine ⟨(r.1 ++ List.replicate (z - r.1.length) ⟨-1, -1⟩, lv),
          List.mem_cons_self _ _, ?_⟩
        exact List.mem_append.2 (Or.inl (hrall p.1 hpin p.2 hget))
      · have hpr2 : p ∈ r.2 := by
          rw [hfil]
          refine List.mem_filter.2 ⟨hp, ?_⟩
          rw [Bool.not_eq_true']
          cases hcon : sel.contains p.1 with
          | false => rfl
          | true => exact absurd ((int_contains_iff _ _).1 hcon) hpin
        rcases hcov p hpr2 with h | ⟨pr, hprm, hprb⟩
        · exact Or.inl h
        · exact Or.inr ⟨pr, List.mem_cons_of_mem _ hprm, hprb⟩
    · intro pr hpr blk hblk' hne
      rcases List.mem_cons.1 hpr with heq | htl
      · subst heq
        rcases List.mem_append.1 hblk' with hb | hb
        · obtain ⟨h1, h2⟩ := hrmem blk hb
          refine ⟨h1, ?_⟩
          obtain ⟨leaf, hlk, hlv⟩ := helig blk.index h2 (List.not_mem_nil _)
          exact ⟨leaf, hlk, hlv⟩
        · exfalso
          have : blk = ⟨-1, -1⟩ := (List.eq_of_mem_replicate hb)
          rw [this] at hne
          exact hne rfl
      · obtain ⟨h1, h2⟩ := hval pr htl blk hblk' hne
        refine ⟨?_, h2⟩
        rw [hfil] at h1
        exact (List.mem_filter.1 h1).1
    · intro p hp pr hpr hpad leaf hlk
      rcases List.mem_cons.1 hpr with heq | htl
      · subst heq
        obtain ⟨blk, hblk', hbe⟩ := hpad
        have hbrep : blk ∈ List.replicate (z - r.1.length) (⟨-1, -1⟩ : Block) := by
          rcases List.mem_append.1 hblk' with hb | hb
          · exfalso
            obtain ⟨h1, _⟩ := hrmem blk hb
            have := hkeys _ h1
            simp only [hbe] at this
            omega
          · exact hb
        have hlt : r.1.length < z := by
          by_contra hc
          rw [show z - r.1.length = 0 by omega] at hbrep
          cases hbrep
        have hsellt : sel.length < z := by omega
        intro hvalid
        exact hnotsel p hp (hcomplete hsellt p (hsubS p hp) leaf hlk hvalid)
      · exact hrem p hp pr htl hpad leaf hlk

theorem get?_eq_getD {α : Type} (l : List α) (i : Nat) (d : α) (h : i < l.length) :
    l.get? i = some (l.getD i d) := by
  rw [List.getD_eq_getD_get?]
  cases hg : l.get? i with
  | none =>
    rw [List.get?_eq_none] at hg
    omega
  | some b => simp

/-- A failed `pmap` lookup aborts the eligibility scan. -/
theorem wbSelect_cons_none (pmap valid : List Nat) (z : Nat) (p : Int × Int)
    (rest : List (Int × Int)) (acc : List Int)
    (hlk : (if 0 ≤ p.1 then pmap.get? p.1.toNat else none) = none) :
    wbSelect pmap valid z (p :: rest) acc = none := by
  by_cases h0 : 0 ≤ p.1
  · rw [if_pos h0] at hlk
    simp only [wbSelect, if_pos h0, hlk]
    rfl
  · simp only [wbSelect, if_neg h0]
    rfl

/-- A successful scan never picks more than `z` entries (scan started below `z`). -/
theorem wbSelect_length_le (pmap valid : List Nat) (z : Nat) :
    ∀ (st : List (Int × Int)) (acc : List Int) (sel : List Int),
    acc.length < z → wbSelect pmap valid z st acc = some sel → sel.length ≤ z := by
  intro st
  induction st with
  | nil =>
    intro acc sel hacc h
    cases h
    omega
  | cons p rest ih =>
    intro acc sel hacc h
    cases hlk : (if 0 ≤ p.1 then pmap.get? p.1.toNat else none) with
    | none =>
      rw [wbSelect_cons_none pmap valid z p rest acc hlk] at h
      cases h
    | some leaf =>
      rw [wbSelect_cons pmap valid z p rest acc leaf hlk] at h
      set acc' := if valid.contains leaf then acc ++ [p.1] else acc with hacc'
      have hlen : acc'.length ≤ acc.length + 1 := by
        rw [hacc']
        by_cases hc : valid.contains leaf
        · rw [if_pos hc]
          simp
        · rw [if_neg hc]
          omega
      by_cases hbr : acc'.length = z
      · rw [if_pos hbr] at h
        rw [← Option.some.inj h]
        omega
      · rw [if_neg hbr] at h
        exact ih acc' sel (by omega) h

/-- Unfolding the emission loop once. -/
theorem wbEmit_cons (a : Int) (rest : List Int) (st : List (Int × Int)) (v : Int)
    (hv : stashGet st a = some v) :
    wbEmit (a :: rest) st =
      (wbEmit rest (stashRemove st a)).bind fun r => some (⟨a, v⟩ :: r.1, r.2) := by
  simp only [wbEmit, hv, Option.some_bind]
  rfl

/-- A missing stash entry aborts the emission loop. -/
theorem wbEmit_cons_none (a : Int) (rest : List Int) (st : List (Int × Int))
    (hv : stashGet st a = none) :
    wbEmit (a :: rest) st = none := by
  simp only [wbEmit, hv]
  rfl

/-- A successful emission produces one block per picked address. -/
theorem wbEmit_length :
    ∀ (sel : List Int) (st : List (Int × Int)) (r : List Block × List (Int × Int)),
    wbEmit sel st = some r → r.1.length = sel.length := by
  intro sel
  induction sel with
  | nil =>
    intro st r h
    cases h
    rfl
  | cons a rest ih =>
    intro st r h
    cases hv : stashGet st a with
    | none =>
      rw [wbEmit_cons_none a rest st hv] at h
      cases h
    | some v =>
      rw [wbEmit_cons a rest st v hv] at h
      cases hr : wbEmit rest (stashRemove st a) with
      | none =>
        rw [hr] at h
        cases h
      | some r' =>
        rw [hr] at h
        simp only [Option.some_bind] at h
        have hlen := ih (stashRemove st a) r' hr
        rw [← Option.some.inj h]
        simp only [List.length_cons, hlen]

/-- A successful level loop emits exactly the path bucket indices, in the
traversal order, regardless of the stash contents. -/
theorem wbLevels_indices (L z : Nat) (pmap : List Nat) (x : Nat) :
    ∀ (lvs : List Nat) (s : WBOut) (out : WBOut),
    wbLevels L z pmap x lvs s = some out →
    out.indices = s.indices ++ lvs.map (get_index L x) := by
  intro lvs
  induction lvs with
  | nil =>
    intro s out h
    cases h
    simp
  | cons lv rest ih =>
    intro s out h
    rw [wbLevels_cons] at h
    cases hsel : wbSelect pmap (get_on_path_indices L x lv) z s.stash [] with
    | none =>
      rw [hsel] at h
      cases h
    | some sel =>
      rw [hsel] at h
      simp only [Option.some_bind] at h
      cases hr : wbEmit sel s.stash with
      | none =>
        rw [hr] at h
        cases h
      | some r =>
        rw [hr] at h
        simp only [Option.some_bind] at h
        rw [ih _ out h]
        simp

/-- A successful level loop appends exactly `z` blocks per level. -/
theorem wbLevels_shape (L z : Nat) (pmap : List Nat) (x : Nat) (hz : 0 < z) :
    ∀ (lvs : List Nat) (s : WBOut) (out : WBOut),
    wbLevels L z pmap x lvs s = some out →
    ∃ gs : List (List Block), out.blocks = s.blocks ++ gs.flatten ∧
      gs.length = lvs.length ∧ ∀ g ∈ gs, g.length = z := by
  intro lvs
  induction lvs with
  | nil =>
    intro s out h
    cases h
    exact ⟨[], by simp, rfl, by simp⟩
  | cons lv rest ih =>
    intro s out h
    rw [wbLevels_cons] at h
    cases hsel : wbSelect pmap (get_on_path_indices L x lv) z s.stash [] with
    | none =>
      rw [hsel] at h
      cases h
    | some sel =>
      rw [hsel] at h
      simp only [Option.some_bind] at h
      cases hr : wbEmit sel s.stash with
      | none =>
        rw [hr] at h
        cases h
      | some r =>
        rw [hr] at h
        simp only [Option.some_bind] at h
        obtain ⟨gs, hb, hgl, hgz⟩ := ih _ out h
        have hsellen : sel.length ≤ z :=
          wbSelect_length_le pmap _ z s.stash [] sel (by simpa using hz) hsel
        have hrlen : r.1.length = sel.length := wbEmit_length sel s.stash r hr
        refine ⟨(r.1 ++ List.replicate (z - r.1.length) ⟨-1, -1⟩) :: gs, ?_, by simp [hgl], ?_⟩
        · rw [hb]
          simp
        · intro g hg
          rcases List.mem_cons.1 hg with heq | htl
          · rw [heq, List.length_append, List.length_replicate]
            omega
          · exact hgz g htl

theorem mem_path_indices_iff (L x b : Nat) :
    b ∈ ((List.range (L + 1)).reverse.map (get_index L x)) ↔ b ∈ path_indices L x := by
  unfold path_indices
  simp only [List.mem_map, List.mem_reverse]

/-- After `write_back_stash` the server write succeeds and the invariant holds
again for the remapped position map and the updated memory contents. -/
theorem writeback_ok (c : ClientState) (srv : ServerState) (m' : Nat → Option Int)
    (x : Nat)
    (hn : 2 ≤ c.n) (hz : 0 < c.z) (hl : 0 < c.l) (hnl : c.num_leaves = 2 ^ c.l)
    (hplen : c.pmap.length = c.n)
    (hplt : ∀ j, j < c.n → c.pmap.getD j 0 < c.num_leaves)
    (hbsz : srv.bucket_size = c.z)
    (hslen : srv.data_store.length = 2 ^ (c.l + 1) - 1)
    (hblen : ∀ bu ∈ srv.data_store, bu.length = c.z)
    (hx : x < 2 ^ c.l)
    (hnd : (c.stash.map Prod.fst).Nodup)
    (hstash : ∀ p ∈ c.stash, 0 ≤ p.1 ∧ p.1.toNat < c.n ∧ m' p.1.toNat = some p.2)
    (hoffcov : ∀ b, b < srv.data_store.length → b ∉ path_indices c.l x →
      ∀ blk ∈ srv.data_store.getD b [], blk.index ≠ -1 →
      (0 ≤ blk.index ∧ blk.index.toNat < c.n ∧ m' blk.index.toNat = some blk.value) ∧
      ∃ lv, lv ≤ c.l ∧ b = get_index c.l (c.pmap.getD blk.index.toNat 0) lv)
    (hexists : ∀ k, k < c.n → ∀ v, m' k = some v →
      ((k : Int), v) ∈ c.stash ∨
      ∃ b, b < srv.data_store.length ∧ b ∉ path_indices c.l x ∧
        (⟨(k : Int), v⟩ : Block) ∈ srv.data_store.getD b [])
    (hnone : ∀ k, k < c.n → m' k = none →
      (∀ p ∈ c.stash, p.1 ≠ (k : Int)) ∧
      (∀ bu ∈ srv.data_store, ∀ blk ∈ bu, blk.index ≠ (k : Int))) :
    ∃ wb srv', write_back_stash c x = some wb ∧
      write_block srv wb.indices wb.blocks = (srv', .ok ()) ∧
      srv' = ⟨srv'.data_store, srv.bucket_size⟩ ∧
      Inv { c with stash := wb.stash } srv' m' := by
  have hkeys : ∀ p ∈ c.stash, 0 ≤ p.1 ∧ p.1.toNat < c.pmap.length := by
    intro p hp
    obtain ⟨h1, h2, _⟩ := hstash p hp
    exact ⟨h1, by omega⟩
  obtain ⟨out, glv, hout, hsnd, hind, hblk, hglen, hsub, houtnd, hcov, hval, hrem⟩ :=
    wbLevels_ok c.l c.z c.pmap x hz ((List.range (c.l + 1)).reverse) c.stash [] []
      hkeys hnd
  have hwb : write_back_stash c x = some out := hout
  have hlvmem : ∀ lv ∈ (List.range (c.l + 1)).reverse, lv ≤ c.l := by
    intro lv hlv
    rw [List.mem_reverse, List.mem_range] at hlv
    omega
  have hindeq : out.indices = (List.range (c.l + 1)).reverse.map (get_index c.l x) := by
    rw [hind]
    simp
  have hblkeq : out.blocks = (glv.map Prod.fst).flatten := by
    rw [hblk]
    simp
  have hglvlen : glv.length = (List.range (c.l + 1)).reverse.length := by
    rw [← hsnd, List.length_map]
  have hprlv : ∀ pr ∈ glv, pr.2 ≤ c.l := by
    intro pr hpr
    exact hlvmem pr.2 (hsnd ▸ List.mem_map.2 ⟨pr, hpr, rfl⟩)
  have hinrange : ∀ i ∈ out.indices, i < srv.data_store.length := by
    intro i hi
    rw [hindeq, List.mem_map] at hi
    obtain ⟨lv, hlv, rfl⟩ := hi
    rw [hslen]
    exact get_index_lt_num_buckets c.l x lv hl hx (hlvmem lv hlv)
  have hnodup : out.indices.Nodup := by
    rw [hindeq]
    apply List.Nodup.map_on
    · intro lv1 h1 lv2 h2 heq
      exact get_index_level_inj c.l x x lv1 lv2 hl hx hx (hlvmem _ h1) (hlvmem _ h2) heq
    · exact List.nodup_reverse.2 (List.nodup_range _)
  have hgrouplen : ∀ g ∈ glv.map Prod.fst, g.length = c.z := by
    intro g hg
    obtain ⟨pr, hpr, rfl⟩ := List.mem_map.1 hg
    exact hglen pr hpr
  have hblocks_len : out.blocks.length = out.indices.length * c.z := by
    rw [hblkeq, flatten_length_const c.z _ hgrouplen, List.length_map, hglvlen,
      hindeq, List.length_map]
  obtain ⟨store', hloop, hlen', hbl', hoff, hseg⟩ :=
    write_block_loop_ok srv.bucket_size out.indices out.blocks srv.data_store
      hinrange (by rw [hbsz]; exact hblen) (by rw [hbsz, hblocks_len]) hnodup
  have hwrite : write_block srv out.indices out.blocks
      = (⟨store', srv.bucket_size⟩, .ok ()) := by
    unfold write_block
    rw [hloop]
  have hpair : ∀ pr ∈ glv, store'.get? (get_index c.l x pr.2) = some pr.1 := by
    intro pr hpr
    obtain ⟨j, hj⟩ := List.mem_iff_get?.1 hpr
    have hjlt : j < glv.length := by
      by_contra hc
      rw [List.get?_eq_none.2 (by omega)] at hj
      cases hj
    have hjlt2 : j < out.indices.length := by
      rw [hindeq, List.length_map, ← hglvlen]
      exact hjlt
    have hidx : out.indices.get? j = some (get_index c.l x pr.2) := by
      rw [hindeq, ← hsnd, List.map_map, List.get?_map, hj]
      rfl
    have hgrp : (glv.map Prod.fst).get? j = some pr.1 := by
      rw [List.get?_map, hj]
      rfl
    have hseg' := hseg j hjlt2
    have hgetidx : out.indices.get? j = some (out.indices.get ⟨j, hjlt2⟩) :=
      List.get?_eq_get hjlt2
    rw [hgetidx] at hidx
    have hidx' : out.indices.get ⟨j, hjlt2⟩ = get_index c.l x pr.2 :=
      Option.some.inj hidx
    have hjlt3 : j < (glv.map Prod.fst).length := by
      rw [List.length_map]
      exact hjlt
    have hflatseg := flatten_drop_take c.z (glv.map Prod.fst) hgrouplen j hjlt3
    have hgrp' : (glv.map Prod.fst).get ⟨j, hjlt3⟩ = pr.1 := by
      have := List.get?_eq_get hjlt3
      rw [this] at hgrp
      exact Option.some.inj hgrp
    rw [hidx', hbsz, hblkeq] at hseg'
    rw [hseg', hflatseg, hgrp']
  have hpathiff : ∀ b, b ∈ out.indices ↔ b ∈ path_indices c.l x := by
    intro b
    rw [hindeq]
    exact mem_path_indices_iff c.l x b
  have hgetD : ∀ (st : List (List Block)) (b : Nat) (bu : List Block),
      st.get? b = some bu → st.getD b [] = bu := by
    intro st b bu h
    rw [List.getD_eq_getD_get?, h]
    rfl
  have honpath_bucket : ∀ b, b ∈ out.indices →
      ∃ pr ∈ glv, b = get_index c.l x pr.2 ∧ store'.get? b = some pr.1 := by
    intro b hb
    rw [hindeq, ← hsnd, List.map_map, List.mem_map] at hb
    obtain ⟨pr, hpr, hb'⟩ := hb
    exact ⟨pr, hpr, hb'.symm, hb' ▸ hpair pr hpr⟩
  refine ⟨out, ⟨store', srv.bucket_size⟩, hwb, hwrite, rfl, ?_⟩
  constructor
  · exact hn
  · exact hz
  · exact hl
  · exact hnl
  · exact hplen
  · exact hplt
  · exact hbsz
  · show store'.length = 2 ^ (c.l + 1) - 1
    rw [hlen', hslen]
  · show ∀ bu ∈ store', bu.length = c.z
    intro bu hbu
    rw [← hbsz]
    exact hbl' bu hbu
  · exact houtnd
  · intro p hp
    exact hstash p (hsub p hp)
  · -- tree_entry
    show ∀ bu ∈ store', ∀ blk ∈ bu, blk.index ≠ -1 → _
    intro bu hbu blk hblk' hne
    obtain ⟨b, hb⟩ := List.mem_iff_get?.1 hbu
    have hblt : b < store'.length := by
      by_contra hc
      rw [List.get?_eq_none.2 (by omega)] at hb
      cases hb
    by_cases hbpath : b ∈ out.indices
    · obtain ⟨pr, hpr, hbeq, hbck⟩ := honpath_bucket b hbpath
      rw [hb] at hbck
      have hbu' : bu = pr.1 := Option.some.inj hbck
      obtain ⟨hmem, _⟩ := hval pr hpr blk (hbu' ▸ hblk') hne
      obtain ⟨h1, h2, h3⟩ := hstash _ hmem
      exact ⟨h1, h2, h3⟩
    · have hold : srv.data_store.get? b = some bu := by
        rw [← hoff b hbpath, hb]
      have hblt2 : b < srv.data_store.length := by
        rw [← hlen']
        exact hblt
      have := hoffcov b hblt2 (fun hc => hbpath ((hpathiff b).2 hc)) blk
        (hgetD _ _ _ hold ▸ hblk') hne
      exact this.1
  · -- coverage
    show ∀ b, b < store'.length → ∀ blk ∈ store'.getD b [], blk.index ≠ -1 → _
    intro b hblt blk hblk' hne
    obtain ⟨bu, hb⟩ : ∃ bu, store'.get? b = some bu := by
      cases hg : store'.get? b with
      | none =>
        rw [List.get?_eq_none] at hg
        omega
      | some bu => exact ⟨bu, rfl⟩
    rw [hgetD _ _ _ hb] at hblk'
    by_cases hbpath : b ∈ out.indices
    · obtain ⟨pr, hpr, hbeq, hbck⟩ := honpath_bucket b hbpath
      rw [hb] at hbck
      have hbu' : bu = pr.1 := Option.some.inj hbck
      obtain ⟨hmem, leaf, hlk, hleafmem⟩ := hval pr hpr blk (hbu' ▸ hblk') hne
      obtain ⟨h1, h2, _⟩ := hstash _ hmem
      have hlk' : c.pmap.getD blk.index.toNat 0 = leaf := by
        rw [List.getD_eq_getD_get?, hlk]
        rfl
      refine ⟨pr.2, hprlv pr hpr, ?_⟩
      rw [hbeq, hlk']
      have hleaflt : leaf < 2 ^ c.l :=
        mem_get_on_path_indices_lt c.l x pr.2 hl (hprlv pr hpr) hx leaf hleafmem
      exact ((mem_get_on_path_indices c.l x pr.2 hl (hprlv pr hpr) hx leaf).1
        hleafmem).2.symm
    · have hold : srv.data_store.get? b = some bu := by
        rw [← hoff b hbpath, hb]
      have hblt2 : b < srv.data_store.length := by
        rw [← hlen']
        exact hblt
      have := hoffcov b hblt2 (fun hc => hbpath ((hpathiff b).2 hc)) blk
        (hgetD _ _ _ hold ▸ hblk') hne
      exact this.2
  · -- exists_occ
    intro k hk v hv
    rcases hexists k hk v hv with hmem | ⟨b, hblt, hbpath, hbmem⟩
    · rcases hcov ((k : Int), v) hmem with hstay | ⟨pr, hpr, hinpr⟩
      · exact Or.inl hstay
      · right
        refine ⟨get_index c.l x pr.2, ?_, ?_⟩
        · rw [hlen']
          exact hinrange _ (hindeq ▸ List.mem_map.2
            ⟨pr.2, hsnd ▸ List.mem_map.2 ⟨pr, hpr, rfl⟩, rfl⟩)
        · rw [hgetD _ _ _ (hpair pr hpr)]
          exact hinpr
    · right
      refine ⟨b, by rw [hlen']; exact hblt, ?_⟩
      have hbni : b ∉ out.indices := fun hc => hbpath ((hpathiff b).1 hc)
      obtain ⟨bu, hbold⟩ : ∃ bu, srv.data_store.get? b = some bu := by
        cases hg : srv.data_store.get? b with
        | none =>
          rw [List.get?_eq_none] at hg
          omega
        | some bu => exact ⟨bu, rfl⟩
      have hbnew : store'.get? b = some bu := by
        rw [hoff b hbni, hbold]
      rw [hgetD _ _ _ hbnew, ← hgetD _ _ _ hbold]
      exact hbmem
  · -- none_occ
    intro k hk hv
    obtain ⟨hsnone, htnone⟩ := hnone k hk hv
    constructor
    · intro p hp
      exact hsnone p (hsub p hp)
    · intro bu hbu blk hblk'
      obtain ⟨b, hb⟩ := List.mem_iff_get?.1 hbu
      by_cases hbpath : b ∈ out.indices
      · obtain ⟨pr, hpr, hbeq, hbck⟩ := honpath_bucket b hbpath
        rw [hb] at hbck
        have hbu' : bu = pr.1 := Option.some.inj hbck
        intro hc
        have hne : blk.index ≠ -1 := by
          rw [hc]
          intro hc2
          have : (k : Int) = -1 := hc2
          omega
        obtain ⟨hmem, _⟩ := hval pr hpr blk (hbu' ▸ hblk') hne
        exact hsnone _ hmem (by rw [← hc])
      · have hold : srv.data_store.get? b = some bu := by
          rw [← hoff b hbpath, hb]
        exact htnone bu (List.get?_mem hold) blk hblk'

theorem mem_path_indices (L x b : Nat) :
    b ∈ path_indices L x ↔ ∃ lv, lv ≤ L ∧ b = get_index L x lv := by
  unfold path_indices
  simp only [List.mem_map, List.mem_range]
  constructor
  · rintro ⟨lv, hlv, rfl⟩
    exact ⟨lv, by omega, rfl⟩
  · rintro ⟨lv, hlv, rfl⟩
    exact ⟨lv, by omega, rfl⟩

/-- The stash refresh of `update_stash`: the `ReadBlock` RPC succeeds and the
merged stash collects every valid block that was on the path, keeps every old
entry's key, stays consistent with `m`, and resolves `a` to `m a`. -/
theorem update_stash_ok (c : ClientState) (srv : ServerState) (m : Nat → Option Int)
    (hInv : Inv c srv m) (a : Nat) (ha : a < c.n) :
    read_block srv (path_indices c.l (c.pmap.getD a 0)) =
      .ok (((path_indices c.l (c.pmap.getD a 0)).map
        (fun i => srv.data_store.getD i [])).flatten) ∧
    (((insertBlocks c.stash (((path_indices c.l (c.pmap.getD a 0)).map
        (fun i => srv.data_store.getD i [])).flatten)).map Prod.fst).Nodup) ∧
    (∀ p ∈ insertBlocks c.stash (((path_indices c.l (c.pmap.getD a 0)).map
        (fun i => srv.data_store.getD i [])).flatten),
      0 ≤ p.1 ∧ p.1.toNat < c.n ∧ m p.1.toNat = some p.2) ∧
    stashGet (insertBlocks c.stash (((path_indices c.l (c.pmap.getD a 0)).map
        (fun i => srv.data_store.getD i [])).flatten)) (a : Int) = m a ∧
    (∀ k, k < c.n → ∀ v, m k = some v →
      ((k : Int), v) ∈ insertBlocks c.stash (((path_indices c.l (c.pmap.getD a 0)).map
        (fun i => srv.data_store.getD i [])).flatten) ∨
      ∃ b, b < srv.data_store.length ∧ b ∉ path_indices c.l (c.pmap.getD a 0) ∧
        (⟨(k : Int), v⟩ : Block) ∈ srv.data_store.getD b []) ∧
    (∀ k, k < c.n → m k = none →
      ∀ p ∈ insertBlocks c.stash (((path_indices c.l (c.pmap.getD a 0)).map
        (fun i => srv.data_store.getD i [])).flatten), p.1 ≠ (k : Int)) := by
  have hx : c.pmap.getD a 0 < 2 ^ c.l := by
    have := hInv.pmap_lt a ha
    rwa [hInv.nl_eq] at this
  set x := c.pmap.getD a 0 with hxdef
  set blks := ((path_indices c.l x).map (fun i => srv.data_store.getD i [])).flatten
    with hblks
  set mid := insertBlocks c.stash blks with hmid
  have hpathin : ∀ i ∈ path_indices c.l x, i < srv.data_store.length := by
    intro i hi
    obtain ⟨lv, hlv, rfl⟩ := (mem_path_indices c.l x i).1 hi
    rw [hInv.store_len]
    exact get_index_lt_num_buckets c.l x lv hInv.l_pos hx hlv
  have hA : read_block srv (path_indices c.l x) = .ok blks :=
    read_block_ok srv (path_indices c.l x) hpathin
  have hmem_blks : ∀ blk : Block, blk ∈ blks ↔
      ∃ i ∈ path_indices c.l x, blk ∈ srv.data_store.getD i [] := by
    intro blk
    rw [hblks, List.mem_flatten]
    constructor
    · rintro ⟨l', hl', hblk⟩
      obtain ⟨i, hi, rfl⟩ := List.mem_map.1 hl'
      exact ⟨i, hi, hblk⟩
    · rintro ⟨i, hi, hblk⟩
      exact ⟨srv.data_store.getD i [], List.mem_map.2 ⟨i, hi, rfl⟩, hblk⟩
  have hbucket_mem : ∀ i, i < srv.data_store.length →
      srv.data_store.getD i [] ∈ srv.data_store := by
    intro i hi
    exact List.get?_mem (get?_eq_getD _ _ _ hi)
  have hblk_good : ∀ blk : Block, blk ∈ blks → blk.index ≠ -1 →
      0 ≤ blk.index ∧ blk.index.toNat < c.n ∧ m blk.index.toNat = some blk.value := by
    intro blk hblk hne
    obtain ⟨i, hi, hmem⟩ := (hmem_blks blk).1 hblk
    exact hInv.tree_entry _ (hbucket_mem i (hpathin i hi)) blk hmem hne
  have hB : (mid.map Prod.fst).Nodup := insertBlocks_keys_nodup hInv.stash_nodup
  have hC : ∀ p ∈ mid, 0 ≤ p.1 ∧ p.1.toNat < c.n ∧ m p.1.toNat = some p.2 := by
    intro p hp
    rcases mem_insertBlocks hp with hm | ⟨b, hb, h1, h2, h3⟩
    · exact hInv.stash_entry p hm
    · obtain ⟨g1, g2, g3⟩ := hblk_good b hb (by rwa [h1])
      rw [h1, h2] at *
      exact ⟨g1, g2, g3⟩
  have hkey_some : ∀ k, k < c.n → ∀ v, m k = some v →
      (k : Int) ∈ mid.map Prod.fst → stashGet mid (k : Int) = some v := by
    intro k hk v hv hkey
    obtain ⟨w, hw⟩ := mem_keys_iff_stashGet.1 hkey
    have hpmem := stashGet_mem hw
    obtain ⟨_, _, hmw⟩ := hC _ hpmem
    rw [show ((k : Int)).toNat = k from Int.toNat_natCast k] at hmw
    rw [hv] at hmw
    have hwv : w = v := (Option.some.inj hmw).symm
    rw [hw, hwv]
  have hkey_none : ∀ k, k < c.n → m k = none →
      (k : Int) ∉ mid.map Prod.fst := by
    intro k hk hv hkey
    obtain ⟨hs, ht⟩ := hInv.none_occ k hk hv
    rcases insertBlocks_keys_sub hkey with hold | ⟨b, hb, h1, _⟩
    · obtain ⟨p, hp, hpk⟩ := List.mem_map.1 hold
      exact hs p hp hpk
    · obtain ⟨i, hi, hmem⟩ := (hmem_blks b).1 hb
      exact ht _ (hbucket_mem i (hpathin i hi)) b hmem h1
  have hkey_mem_of_some : ∀ k, k < c.n → ∀ v, m k = some v →
      ((k : Int), v) ∈ c.stash ∨
        (∃ b ∈ path_indices c.l x, (⟨(k : Int), v⟩ : Block) ∈ srv.data_store.getD b []) →
      (k : Int) ∈ mid.map Prod.fst := by
    intro k hk v hv hor
    rcases hor with hold | ⟨b, hb, hmem⟩
    · exact insertBlocks_keys_mono (List.mem_map.2 ⟨_, hold, rfl⟩)
    · have : (⟨(k : Int), v⟩ : Block) ∈ blks := (hmem_blks _).2 ⟨b, hb, hmem⟩
      have h1 : (⟨(k : Int), v⟩ : Block).index ≠ -1 := by
        show (k : Int) ≠ -1
        omega
      exact insertBlocks_keys_of_block this h1
  have hG : stashGet mid (a : Int) = m a := by
    cases hma : m a with
    | none =>
      cases hg : stashGet mid (a : Int) with
      | none => rfl
      | some w =>
        exfalso
        exact hkey_none a ha hma (mem_keys_iff_stashGet.2 ⟨w, hg⟩)
    | some v =>
      apply hkey_some a ha v hma
      apply hkey_mem_of_some a ha v hma
      rcases hInv.exists_occ a ha v hma with hold | ⟨b, hblt, hmem⟩
      · exact Or.inl hold
      · right
        refine ⟨b, ?_, hmem⟩
        obtain ⟨lv, hlv, hbeq⟩ := hInv.coverage b hblt ⟨(a : Int), v⟩ hmem (by
          show (a : Int) ≠ -1
          omega)
        rw [show (⟨(a : Int), v⟩ : Block).index.toNat = a from Int.toNat_natCast a]
          at hbeq
        exact (mem_path_indices c.l x b).2 ⟨lv, hlv, hbeq⟩
  have hE : ∀ k, k < c.n → ∀ v, m k = some v →
      ((k : Int), v) ∈ mid ∨
      ∃ b, b < srv.data_store.length ∧ b ∉ path_indices c.l x ∧
        (⟨(k : Int), v⟩ : Block) ∈ srv.data_store.getD b [] := by
    intro k hk v hv
    rcases hInv.exists_occ k hk v hv with hold | ⟨b, hblt, hmem⟩
    · left
      have hkey := hkey_mem_of_some k hk v hv (Or.inl hold)
      exact stashGet_mem (hkey_some k hk v hv hkey)
    · by_cases hbp : b ∈ path_indices c.l x
      · left
        have hkey := hkey_mem_of_some k hk v hv (Or.inr ⟨b, hbp, hmem⟩)
        exact stashGet_mem (hkey_some k hk v hv hkey)
      · exact Or.inr ⟨b, hblt, hbp, hmem⟩
  have hF : ∀ k, k < c.n → m k = none → ∀ p ∈ mid, p.1 ≠ (k : Int) := by
    intro k hk hv p hp hc
    exact hkey_none k hk hv (List.mem_map.2 ⟨p, hp, hc⟩)
  exact ⟨hA, hB, hC, hG, hE, hF⟩

theorem natCast_toNat_ne {p : Int} {a : Nat} (h0 : 0 ≤ p) (h : p ≠ (a : Int)) :
    p.toNat ≠ a := by
  intro hc
  apply h
  omega

/-- A `read` access from an invariant state succeeds, returns `m a`, and
re-establishes the invariant with the same memory contents. -/
theorem read_ok (c : ClientState) (srv : ServerState) (m : Nat → Option Int)
    (hInv : Inv c srv m) (a sample : Nat) (ha : a < c.n) :
    ∃ (c' : ClientState) (srv' : ServerState) (log : AccessLog),
      read c srv a sample = some (m a, c', srv', log) ∧ Inv c' srv' m ∧
      c'.n = c.n ∧ c'.l = c.l ∧ c'.z = c.z ∧ c'.num_leaves = c.num_leaves := by
  have hget : c.pmap.get? a = some (c.pmap.getD a 0) :=
    get?_eq_getD _ _ _ (by rw [hInv.pmap_len]; exact ha)
  have hnlpos : 0 < c.num_leaves := by
    rw [hInv.nl_eq]
    exact Nat.pos_pow_of_pos _ (by norm_num)
  have hfresh : genRange c.num_leaves sample = some (sample % c.num_leaves) := by
    unfold genRange
    rw [if_neg (by omega)]
  have hfresh_lt : sample % c.num_leaves < c.num_leaves := Nat.mod_lt _ hnlpos
  obtain ⟨hA, hB, hC, hG, hE, hF⟩ := update_stash_ok c srv m hInv a ha
  have hx : c.pmap.getD a 0 < 2 ^ c.l := by
    have := hInv.pmap_lt a ha
    rwa [hInv.nl_eq] at this
  set x := c.pmap.getD a 0 with hxdef
  set blks := ((path_indices c.l x).map (fun i => srv.data_store.getD i [])).flatten
    with hblksdef
  set mid := insertBlocks c.stash blks with hmiddef
  set pm1 := c.pmap.set a (sample % c.num_leaves) with hpm1def
  have hplen1 : pm1.length = c.n := by
    rw [hpm1def, List.length_set, hInv.pmap_len]
  have hplt1 : ∀ j, j < c.n → pm1.getD j 0 < c.num_leaves := by
    intro j hj
    by_cases hja : j = a
    · subst hja
      rw [hpm1def, List.getD_eq_getD_get?,
        List.get?_set_eq_of_lt _ (by rw [hInv.pmap_len]; exact hj)]
      exact hfresh_lt
    · rw [hpm1def, List.getD_eq_getD_get?,
        List.get?_set_ne _ _ (fun hc => hja hc.symm), ← List.getD_eq_getD_get?]
      exact hInv.pmap_lt j hj
  have hpm1_ne : ∀ j, j ≠ a → pm1.getD j 0 = c.pmap.getD j 0 := by
    intro j hja
    rw [hpm1def, List.getD_eq_getD_get?,
      List.get?_set_ne _ _ (fun hc => hja hc.symm), ← List.getD_eq_getD_get?]
  -- the mid-access client state
  obtain ⟨wb, srv', hwb, hwrite, hsrv', hInv'⟩ :=
    writeback_ok { c with pmap := pm1, stash := mid } srv m x
      hInv.n_ge hInv.z_pos hInv.l_pos hInv.nl_eq hplen1 hplt1 hInv.bsz
      hInv.store_len hInv.bucket_len hx hB hC
      (by
        intro b hblt hbp blk hblk hne
        have hbmem : srv.data_store.getD b [] ∈ srv.data_store :=
          List.get?_mem (get?_eq_getD _ _ _ hblt)
        obtain ⟨h1, h2, h3⟩ := hInv.tree_entry _ hbmem blk hblk hne
        obtain ⟨lv, hlv, hbeq⟩ := hInv.coverage b hblt blk hblk hne
        refine ⟨⟨h1, h2, h3⟩, lv, hlv, ?_⟩
        by_cases hta : blk.index.toNat = a
        · exfalso
          rw [hta] at hbeq
          exact hbp ((mem_path_indices c.l x b).2 ⟨lv, hlv, hbeq⟩)
        · show b = get_index c.l (pm1.getD blk.index.toNat 0) lv
          rw [hpm1_ne _ hta]
          exact hbeq)
      (by
        intro k hk v hv
        exact hE k hk v hv)
      (by
        intro k hk hv
        exact ⟨hF k hk hv, (hInv.none_occ k hk hv).2⟩)
  refine ⟨{ c with pmap := pm1, stash := wb.stash },
    (write_block srv wb.indices wb.blocks).1,
    ⟨path_indices c.l x, true, wb.indices, wb.blocks,
      (write_block srv wb.indices wb.blocks).2.toBool⟩, ?_, ?_, rfl, rfl, rfl, rfl⟩
  · rw [← hG]
    simp only [read, hget, hfresh, Option.some_bind, Option.bind_eq_bind, hA]
    simp only [hwb, Option.some_bind]
    rfl
  · show Inv _ (write_block srv wb.indices wb.blocks).1 m
    rw [hwrite]
    exact hInv'

/-- A `write` access from an invariant state succeeds, returns the prior
binding `m a`, and re-establishes the invariant with the updated contents. -/
theorem write_ok (c : ClientState) (srv : ServerState) (m : Nat → Option Int)
    (hInv : Inv c srv m) (a sample : Nat) (v : Int) (ha : a < c.n) :
    ∃ (c' : ClientState) (srv' : ServerState) (log : AccessLog),
      write c srv a v sample = some (m a, c', srv', log) ∧
      Inv c' srv' (fun k => if k = a then some v else m k) ∧
      c'.n = c.n ∧ c'.l = c.l ∧ c'.z = c.z ∧ c'.num_leaves = c.num_leaves := by
  have hget : c.pmap.get? a = some (c.pmap.getD a 0) :=
    get?_eq_getD _ _ _ (by rw [hInv.pmap_len]; exact ha)
  have hnlpos : 0 < c.num_leaves := by
    rw [hInv.nl_eq]
    exact Nat.pos_pow_of_pos _ (by norm_num)
  have hfresh : genRange c.num_leaves sample = some (sample % c.num_leaves) := by
    unfold genRange
    rw [if_neg (by omega)]
  have hfresh_lt : sample % c.num_leaves < c.num_leaves := Nat.mod_lt _ hnlpos
  obtain ⟨hA, hB, hC, hG, hE, hF⟩ := update_stash_ok c srv m hInv a ha
  have hx : c.pmap.getD a 0 < 2 ^ c.l := by
    have := hInv.pmap_lt a ha
    rwa [hInv.nl_eq] at this
  set m' := fun k => if k = a then some v else m k with hmpdef
  set x := c.pmap.getD a 0 with hxdef
  set blks := ((path_indices c.l x).map (fun i => srv.data_store.getD i [])).flatten
    with hblksdef
  set mid := insertBlocks c.stash blks with hmiddef
  set S := stashInsert mid (a : Int) v with hSdef
  set pm1 := c.pmap.set a (sample % c.num_leaves) with hpm1def
  have hplen1 : pm1.length = c.n := by
    rw [hpm1def, List.length_set, hInv.pmap_len]
  have hplt1 : ∀ j, j < c.n → pm1.getD j 0 < c.num_leaves := by
    intro j hj
    by_cases hja : j = a
    · subst hja
      rw [hpm1def, List.getD_eq_getD_get?,
        List.get?_set_eq_of_lt _ (by rw [hInv.pmap_len]; exact hj)]
      exact hfresh_lt
    · rw [hpm1def, List.getD_eq_getD_get?,
        List.get?_set_ne _ _ (fun hc => hja hc.symm), ← List.getD_eq_getD_get?]
      exact hInv.pmap_lt j hj
  have hpm1_ne : ∀ j, j ≠ a → pm1.getD j 0 = c.pmap.getD j 0 := by
    intro j hja
    rw [hpm1def, List.getD_eq_getD_get?,
      List.get?_set_ne _ _ (fun hc => hja hc.symm), ← List.getD_eq_getD_get?]
  have hmpa : m' a = some v := by
    rw [hmpdef]
    simp
  have hmp_ne : ∀ k, k ≠ a → m' k = m k := by
    intro k hk
    rw [hmpdef]
    simp [hk]
  have hSnodup : (S.map Prod.fst).Nodup := stashInsert_keys_nodup hB
  have hSentry : ∀ p ∈ S, 0 ≤ p.1 ∧ p.1.toNat < c.n ∧ m' p.1.toNat = some p.2 := by
    intro p hp
    rcases mem_stashInsert hp with heq | ⟨hm, hne⟩
    · rw [heq]
      refine ⟨by omega, by simpa using ha, ?_⟩
      rw [show ((a : Int), v).1.toNat = a by simp]
      exact hmpa
    · obtain ⟨h1, h2, h3⟩ := hC p hm
      refine ⟨h1, h2, ?_⟩
      rw [hmp_ne _ (natCast_toNat_ne h1 hne)]
      exact h3
  obtain ⟨wb, srv', hwb, hwrite, hsrv', hInv'⟩ :=
    writeback_ok { c with pmap := pm1, stash := S } srv m' x
      hInv.n_ge hInv.z_pos hInv.l_pos hInv.nl_eq hplen1 hplt1 hInv.bsz
      hInv.store_len hInv.bucket_len hx hSnodup hSentry
      (by
        intro b hblt hbp blk hblk hne
        have hbmem : srv.data_store.getD b [] ∈ srv.data_store :=
          List.get?_mem (get?_eq_getD _ _ _ hblt)
        obtain ⟨h1, h2, h3⟩ := hInv.tree_entry _ hbmem blk hblk hne
        obtain ⟨lv, hlv, hbeq⟩ := hInv.coverage b hblt blk hblk hne
        by_cases hta : blk.index.toNat = a
        · exfalso
          rw [hta] at hbeq
          exact hbp ((mem_path_indices c.l x b).2 ⟨lv, hlv, hbeq⟩)
        · refine ⟨⟨h1, h2, ?_⟩, lv, hlv, ?_⟩
          · rw [hmp_ne _ hta]
            exact h3
          · show b = get_index c.l (pm1.getD blk.index.toNat 0) lv
            rw [hpm1_ne _ hta]
            exact hbeq)
      (by
        intro k hk v' hv'
        by_cases hka : k = a
        · subst hka
          left
          rw [hmpa] at hv'
          rw [← Option.some.inj hv']
          exact stashInsert_self_mem mid (k : Int) v
        · rw [hmp_ne _ hka] at hv'
          rcases hE k hk v' hv' with hmem | hoff
          · left
            have hgetk : stashGet mid (k : Int) = some v' :=
              stashGet_of_mem_nodup hB hmem
            have hgetS : stashGet S (k : Int) = some v' := by
              rw [hSdef, stashGet_stashInsert,
                if_neg (fun hc => hka (Int.natCast_inj.1 hc))]
              exact hgetk
            exact stashGet_mem hgetS
          · exact Or.inr hoff)
      (by
        intro k hk hv
        have hka : k ≠ a := by
          intro hc
          rw [hc, hmpa] at hv
          cases hv
        rw [hmp_ne _ hka] at hv
        refine ⟨?_, (hInv.none_occ k hk hv).2⟩
        intro p hp
        rcases mem_stashInsert hp with heq | ⟨hm, _⟩
        · rw [heq]
          intro hc
          exact hka (Int.natCast_inj.1 hc).symm
        · exact hF k hk hv p hm)
  refine ⟨{ c with pmap := pm1, stash := wb.stash },
    (write_block srv wb.indices wb.blocks).1,
    ⟨path_indices c.l x, true, wb.indices, wb.blocks,
      (write_block srv wb.indices wb.blocks).2.toBool⟩, ?_, ?_, rfl, rfl, rfl, rfl⟩
  · rw [← hG]
    simp only [write, hget, hfresh, Option.some_bind, Option.bind_eq_bind, hA]
    simp only [hwb, Option.some_bind]
    rfl
  · show Inv _ (write_block srv wb.indices wb.blocks).1 m'
    rw [hwrite]
    exact hInv'

/-- Drawing the initial position map always succeeds for a nonempty range. -/
theorem pmap_init_ok (g : Nat → Nat) (nl : Nat) (hnl : nl ≠ 0) :
    ∀ ls : List Nat, ls.mapM (fun i => genRange nl (g i))
      = some (ls.map (fun i => g i % nl)) := by
  intro ls
  induction ls with
  | nil => rfl
  | cons i rest ih =>
    rw [List.mapM_cons]
    have hg : genRange nl (g i) = some (g i % nl) := by
      unfold genRange
      rw [if_neg hnl]
    rw [hg, ih]
    rfl

/-- The abstract contents produced by the `setup` write loop. -/
theorem enumFrom_fold_eq (data : List Int) :
    ∀ (s : Nat) (m : Nat → Option Int),
    ((List.enumFrom s data).foldl
        (fun mm p => fun k => if k = p.1 then some p.2 else mm k) m)
      = fun k => if s ≤ k ∧ k < s + data.length then data.get? (k - s) else m k := by
  induction data with
  | nil =>
    intro s m
    funext k
    simp only [List.enumFrom, List.foldl_nil, List.length_nil]
    rw [if_neg (by omega)]
  | cons d ds ih =>
    intro s m
    funext k
    simp only [List.enumFrom, List.foldl_cons]
    rw [congrFun (ih (s + 1) (fun k => if k = s then some d else m k)) k]
    by_cases h1 : s + 1 ≤ k ∧ k < s + 1 + ds.length
    · rw [if_pos h1, if_pos (by simp only [List.length_cons]; omega)]
      have hk : k - s = (k - (s + 1)) + 1 := by omega
      rw [hk]
      rfl
    · rw [if_neg h1]
      by_cases h2 : k = s
      · subst h2
        rw [if_pos rfl, if_pos (by simp only [List.length_cons]; omega)]
        rw [show k - k = 0 by omega]
        rfl
      · rw [if_neg h2, if_neg (by simp only [List.length_cons]; omega)]

theorem enum_fold_eq (data : List Int) :
    (data.enum.foldl (fun mm p => fun k => if k = p.1 then some p.2 else mm k)
      (fun _ => none)) = fun a => data.get? a := by
  show ((List.enumFrom 0 data).foldl _ _) = _
  rw [enumFrom_fold_eq data 0 (fun _ => none)]
  funext k
  by_cases hk : k < data.length
  · rw [if_pos (by omega), Nat.sub_zero]
  · rw [if_neg (by omega)]
    exact (List.get?_eq_none.2 (by omega)).symm

/-- The write loop at the end of `setup` preserves the invariant and applies
each write to the abstract contents. -/
theorem setupWrites_ok (g : Nat → Nat) :
    ∀ (ps : List (Nat × Int)) (gi : Nat) (c : ClientState) (srv : ServerState)
      (m : Nat → Option Int),
    Inv c srv m → (∀ p ∈ ps, p.1 < c.n) →
    ∃ c' srv', setupWrites g ps gi c srv = some (c', srv') ∧
      Inv c' srv'
        (ps.foldl (fun mm p => fun k => if k = p.1 then some p.2 else mm k) m) ∧
      c'.n = c.n := by
  intro ps
  induction ps with
  | nil =>
    intro gi c srv m hInv _
    exact ⟨c, srv, rfl, hInv, rfl⟩
  | cons p rest ih =>
    rcases p with ⟨pa, pv⟩
    intro gi c srv m hInv hps
    obtain ⟨c1, srv1, log, heq, hInv1, hn1, _, _, _⟩ :=
      write_ok c srv m hInv pa (g gi) pv (hps (pa, pv) (List.mem_cons_self _ _))
    obtain ⟨c', srv', heq', hInv', hn'⟩ := ih (gi + 1) c1 srv1 _ hInv1
      (fun q hq => by
        rw [hn1]
        exact hps q (List.mem_cons_of_mem _ hq))
    refine ⟨c', srv', ?_, ?_, by rw [hn', hn1]⟩
    · show setupWrites g ((pa, pv) :: rest) gi c srv = some (c', srv')
      have hstep : setupWrites g ((pa, pv) :: rest) gi c srv
          = (write c srv pa pv (g gi)).bind
              fun r => setupWrites g rest (gi + 1) r.2.1 r.2.2.1 := rfl
      rw [hstep, heq, Option.some_bind]
      exact heq'
    · simpa using hInv'

/-- A successful `setup` on at least two slots establishes the invariant with
the written data as abstract contents. -/
theorem setup_inv (z : Nat) (data : List Int) (g : Nat → Nat) (c : ClientState)
    (srv : ServerState) (hz : 0 < z) (hn : 2 ≤ data.length)
    (h : setup z data g = some (c, srv)) :
    Inv c srv (fun a => data.get? a) ∧ c.n = data.length := by
  have hl : 0 < Nat.clog 2 data.length := Nat.clog_pos (by norm_num) hn
  have hnl : (if 0 < Nat.clog 2 data.length then 2 ^ Nat.clog 2 data.length else 0)
      = 2 ^ Nat.clog 2 data.length := if_pos hl
  have hnl0 : (2 : Nat) ^ Nat.clog 2 data.length ≠ 0 := by
    have := Nat.pos_pow_of_pos (Nat.clog 2 data.length) (show 0 < 2 by norm_num)
    omega
  have hmapM := pmap_init_ok g (2 ^ Nat.clog 2 data.length) hnl0
    (List.range data.length)
  have hsetup : setup z data g
      = setupWrites g data.enum data.length
          ⟨data.length, Nat.clog 2 data.length, z, [],
            (List.range data.length).map
              (fun i => g i % 2 ^ Nat.clog 2 data.length),
            2 ^ Nat.clog 2 data.length⟩
          (server_setup (Nat.clog 2 data.length + 1) z) := by
    unfold setup
    simp only [hnl, hmapM, Option.bind_eq_bind, Option.some_bind]
  set pm0 := (List.range data.length).map
    (fun i => g i % 2 ^ Nat.clog 2 data.length) with hpm0
  set c0 : ClientState := ⟨data.length, Nat.clog 2 data.length, z, [], pm0,
    2 ^ Nat.clog 2 data.length⟩ with hc0
  set srv0 := server_setup (Nat.clog 2 data.length + 1) z with hsrv0
  have hInv0 : Inv c0 srv0 (fun _ => none) := by
    constructor
    · exact hn
    · exact hz
    · exact hl
    · rfl
    · show pm0.length = data.length
      rw [hpm0, List.length_map, List.length_range]
    · intro j hj
      show pm0.getD j 0 < 2 ^ Nat.clog 2 data.length
      have hjlen : j < pm0.length := by
        rw [hpm0, List.length_map, List.length_range]
        exact hj
      have := get?_eq_getD pm0 j 0 hjlen
      have hmem : pm0.getD j 0 ∈ pm0 := List.get?_mem this
      rw [hpm0] at hmem
      obtain ⟨i, _, hi⟩ := List.mem_map.1 hmem
      rw [← hi]
      exact Nat.mod_lt _ (by omega)
    · rfl
    · show (List.replicate (2 ^ (Nat.clog 2 data.length + 1) - 1)
          (List.replicate z (⟨-1, -1⟩ : Block))).length = _
      rw [List.length_replicate]
    · intro bu hbu
      show bu.length = z
      rw [List.eq_of_mem_replicate hbu, List.length_replicate]
    · simp
    · intro p hp
      cases hp
    · intro bu hbu blk hblk hne
      exfalso
      rw [List.eq_of_mem_replicate hbu] at hblk
      exact hne (congrArg Block.index (List.eq_of_mem_replicate hblk))
    · intro b hblt blk hblk hne
      exfalso
      show False
      have : srv0.data_store.getD b [] ∈ srv0.data_store :=
        List.get?_mem (get?_eq_getD _ _ _ hblt)
      rw [List.eq_of_mem_replicate this] at hblk
      exact hne (congrArg Block.index (List.eq_of_mem_replicate hblk))
    · intro a _ v hv
      cases hv
    · intro a _ _
      constructor
      · intro p hp
        cases hp
      · intro bu hbu blk hblk
        have : srv0.data_store = List.replicate (2 ^ (Nat.clog 2 data.length + 1) - 1)
            (List.replicate z (⟨-1, -1⟩ : Block)) := rfl
        rw [this] at hbu
        rw [List.eq_of_mem_replicate hbu] at hblk
        rw [List.eq_of_mem_replicate hblk]
        show (-1 : Int) ≠ (a : Int)
        omega
  obtain ⟨c', srv', heq, hInv', hn'⟩ := setupWrites_ok g data.enum data.length c0 srv0
    (fun _ => none) hInv0
    (by
      intro p hp
      show p.1 < data.length
      have hpg := List.mem_enum_iff_get?.1 hp
      by_contra hc
      rw [List.get?_eq_none.2 (by omega)] at hpg
      cases hpg)
  rw [hsetup, heq] at h
  obtain ⟨rfl, rfl⟩ : c' = c ∧ srv' = srv := by
    have := Option.some.inj h
    exact ⟨congrArg Prod.fst this, congrArg Prod.snd this⟩
  rw [enum_fold_eq data] at hInv'
  exact ⟨hInv', by rw [hn']⟩

/-- A successful `read` implies the address indexes the position map. -/
theorem read_addr_lt (c : ClientState) (srv : ServerState) (a sample : Nat)
    (r : Option Int × ClientState × ServerState × AccessLog)
    (h : read c srv a sample = some r) : a < c.pmap.length := by
  by_contra hc
  simp only [read, Option.bind_eq_bind] at h
  rw [List.get?_eq_none.2 (by omega)] at h
  simp at h

/-- A successful `write` implies the address indexes the position map. -/
theorem write_addr_lt (c : ClientState) (srv : ServerState) (a sample : Nat)
    (v : Int) (r : Option Int × ClientState × ServerState × AccessLog)
    (h : write c srv a v sample = some r) : a < c.pmap.length := by
  by_contra hc
  simp only [write, Option.bind_eq_bind] at h
  rw [List.get?_eq_none.2 (by omega)] at h
  simp at h

/-- Every reachable state satisfies the invariant `Inv` with its abstract
contents. -/
theorem reaches_inv (c : ClientState) (srv : ServerState) (m : Nat → Option Int)
    (h : ReachesWith c srv m) : Inv c srv m := by
  induction h with
  | init z data g c srv hz hn hs =>
    exact (setup_inv z data g c srv hz hn hs).1
  | readStep c srv m a sample out c' srv' log hr h ih =>
    have ha : a < c.n := by
      have := read_addr_lt c srv a sample _ h
      rwa [ih.pmap_len] at this
    obtain ⟨c2, srv2, log2, heq, hInv2, -, -, -, -⟩ := read_ok c srv m ih a sample ha
    rw [h] at heq
    simp only [Option.some.injEq, Prod.mk.injEq] at heq
    obtain ⟨-, hc2, hs2, -⟩ := heq
    rw [hc2, hs2]
    exact hInv2
  | writeStep c srv m a sample v out c' srv' log hr h ih =>
    have ha : a < c.n := by
      have := write_addr_lt c srv a sample v _ h
      rwa [ih.pmap_len] at this
    obtain ⟨c2, srv2, log2, heq, hInv2, -, -, -, -⟩ := write_ok c srv m ih a sample v ha
    rw [h] at heq
    simp only [Option.some.injEq, Prod.mk.injEq] at heq
    obtain ⟨-, hc2, hs2, -⟩ := heq
    rw [hc2, hs2]
    exact hInv2

/-- Running any successful sequence of accesses from an invariant state
preserves the invariant for some abstract contents that agree with the old
contents on every address the sequence never writes. -/
theorem runOps_ok :
    ∀ (ops : List (Op × Nat)) (c : ClientState) (srv : ServerState)
      (m : Nat → Option Int) (c2 : ClientState) (srv2 : ServerState),
    Inv c srv m → runOps c srv ops = some (c2, srv2) →
    ∃ m2, Inv c2 srv2 m2 ∧ c2.n = c.n ∧
      ∀ k, (∀ p ∈ ops, ∀ w, p.1 ≠ Op.wr k w) → m2 k = m k := by
  intro ops
  induction ops with
  | nil =>
    intro c srv m c2 srv2 hInv hrun
    have hrun' : some (c, srv) = some (c2, srv2) := hrun
    obtain ⟨rfl, rfl⟩ : c = c2 ∧ srv = srv2 := by
      have := Option.some.inj hrun'
      exact ⟨congrArg Prod.fst this, congrArg Prod.snd this⟩
    exact ⟨m, hInv, rfl, fun _ _ => rfl⟩
  | cons p rest ih =>
    rcases p with ⟨op, s⟩
    intro c srv m c2 srv2 hInv hrun
    have hrun' : (stepOp c srv op s).bind
        (fun r => runOps r.2.1 r.2.2.1 rest) = some (c2, srv2) := hrun
    cases hstep : stepOp c srv op s with
    | none =>
      rw [hstep] at hrun'
      simp at hrun'
    | some r =>
      rw [hstep, Option.some_bind] at hrun'
      cases op with
      | rd a =>
        have hread : read c srv a s = some r := hstep
        have ha : a < c.n := by
          have := read_addr_lt c srv a s _ hread
          rwa [hInv.pmap_len] at this
        obtain ⟨c1, srv1, log1, heq, hInv1, hn1, -, -, -⟩ :=
          read_ok c srv m hInv a s ha
        rw [hread] at heq
        simp only [Option.some.injEq] at heq
        subst heq
        obtain ⟨m2, hInv2, hn2, hag⟩ := ih c1 srv1 m c2 srv2 hInv1 hrun'
        refine ⟨m2, hInv2, hn2.trans hn1, ?_⟩
        intro k hk
        exact hag k (fun q hq w => hk q (List.mem_cons_of_mem _ hq) w)
      | wr a v =>
        have hwrite : write c srv a v s = some r := hstep
        have ha : a < c.n := by
          have := write_addr_lt c srv a s v _ hwrite
          rwa [hInv.pmap_len] at this
        obtain ⟨c1, srv1, log1, heq, hInv1, hn1, -, -, -⟩ :=
          write_ok c srv m hInv a s v ha
        rw [hwrite] at heq
        simp only [Option.some.injEq] at heq
        subst heq
        obtain ⟨m2, hInv2, hn2, hag⟩ := ih c1 srv1 _ c2 srv2 hInv1 hrun'
        refine ⟨m2, hInv2, hn2.trans hn1, ?_⟩
        intro k hk
        have hka : k ≠ a := by
          intro hkeq
          exact hk (Op.wr a v, s) (List.mem_cons_self _ _) v (by rw [hkeq])
        have := hag k (fun q hq w => hk q (List.mem_cons_of_mem _ hq) w)
        rw [this, if_neg hka]


/-! ## Claim theorems -/


theorem clog_two_two : Nat.clog 2 2 = 1 := by
  rw [Nat.clog]
  norm_num [Nat.clog_one_right]

theorem setup_eval : setup 1 [10, 20] g0 = some (c0v, srv0v) := by
  have h2 : Nat.clog 2 ([(10 : Int), 20].length) = 1 := by
    norm_num [clog_two_two]
  simp only [setup]
  rw [h2]
  rfl

/-- Claim C8: for every `L ≥ 1`, leaf `x < 2^L` and level `lv ≤ L`, the
bucket index is `((1 <<< L) + x) >>> (L - lv) - 1`; it is the `(L - lv)`-fold
heap ancestor of the leaf bucket `get_index L x L` (parent of `j` is
`(j-1)/2`, so `get_index` steps down to a child `2i+1` or `2i+2`); and
`get_on_path_indices L x lv` contains exactly the leaves `y` whose
root-to-leaf paths pass through that bucket. -/
theorem C8_index_geometry (L x lv : Nat) (hL : 1 ≤ L) (hx : x < 2 ^ L)
    (hlv : lv ≤ L) :
    get_index L x lv = ((1 <<< L) + x) >>> (L - lv) - 1 ∧
    heapParent^[L - lv] (get_index L x L) = get_index L x lv ∧
    (lv < L → get_index L x (lv + 1) = 2 * get_index L x lv + 1 ∨
      get_index L x (lv + 1) = 2 * get_index L x lv + 2) ∧
    ∀ y, y ∈ get_on_path_indices L x lv ↔
      y < 2 ^ L ∧ get_index L y lv = get_index L x lv := by
  refine ⟨?_, get_index_ancestor L x lv hL hlv, ?_,
    fun y => mem_get_on_path_indices L x lv hL hlv hx y⟩
  · simp only [get_index]
    rw [if_pos (show 0 < L from hL)]
  · intro hlt
    have hpar := heapParent_get_index L x lv hL hlt
    have hq1 : 1 ≤ get_index L x (lv + 1) := by
      have := get_index_lb L x (lv + 1) hL (by omega)
      have h2 : 2 ≤ 2 ^ (lv + 1) := by
        have : 2 ^ 1 ≤ 2 ^ (lv + 1) := Nat.pow_le_pow_right (by norm_num) (by omega)
        simpa using this
      omega
    unfold heapParent at hpar
    have hdm := Nat.div_add_mod (get_index L x (lv + 1) - 1) 2
    have hmlt : (get_index L x (lv + 1) - 1) % 2 < 2 := Nat.mod_lt _ (by norm_num)
    omega

/-- Claim C8 witness: the geometry at `L = 2`, `x = 3`, `lv = 1`. -/
theorem C8_index_geometry_witness :
    (1 ≤ 2 ∧ 3 < 2 ^ 2 ∧ 1 ≤ 2) ∧
    (get_index 2 3 1 = ((1 <<< 2) + 3) >>> (2 - 1) - 1 ∧
      heapParent^[2 - 1] (get_index 2 3 2) = get_index 2 3 1 ∧
      (1 < 2 → get_index 2 3 (1 + 1) = 2 * get_index 2 3 1 + 1 ∨
        get_index 2 3 (1 + 1) = 2 * get_index 2 3 1 + 2) ∧
      ∀ y, y ∈ get_on_path_indices 2 3 1 ↔
        y < 2 ^ 2 ∧ get_index 2 y 1 = get_index 2 3 1) :=
  ⟨by decide, C8_index_geometry 2 3 1 (by decide) (by decide) (by decide)⟩

/-- Claim C5: with `N = 1` the code sets `l = 0`, hence `num_leaves = 0`,
and the position-map initialisation calls `gen_range(0..0)`, which panics:
`setup` never completes, for any bucket size and any RNG outcome.  This
refutes the spec scenario in which `setup([7])` succeeds on the one-bucket
tree. -/
theorem C5_setup_n1_panics (z : Nat) (g : Nat → Nat) : setup z [7] g = none := by
  have h1 : Nat.clog 2 ([(7 : Int)].length) = 0 := by
    norm_num [Nat.clog_one_right]
  simp only [setup, h1, List.length_singleton]
  norm_num [genRange]
  intro a ha
  simp [List.mapM.loop, List.range_succ] at ha


/-- Claim C1: from any reachable state (setup with `N ≥ 2` followed by any
successful accesses), `write a v`, then any successful accesses none of which
writes to `a`, then `read a` returns `some v`.  With the intervening list
empty and the preceding run ending in `write a v1`, this specialises to the
overwrite law `write a v1; write a v2; read a = v2`. -/
theorem C1_read_after_write
    (c : ClientState) (srv : ServerState) (m : Nat → Option Int)
    (hr : ReachesWith c srv m)
    (a : Nat) (v : Int) (s0 : Nat) (out0 : Option Int)
    (c1 : ClientState) (srv1 : ServerState) (log1 : AccessLog)
    (hw : write c srv a v s0 = some (out0, c1, srv1, log1))
    (mid : List (Op × Nat)) (hmid : ∀ p ∈ mid, ∀ w, p.1 ≠ Op.wr a w)
    (c2 : ClientState) (srv2 : ServerState)
    (hrun : runOps c1 srv1 mid = some (c2, srv2))
    (s1 : Nat) (out : Option Int) (c3 : ClientState) (srv3 : ServerState)
    (log3 : AccessLog)
    (hrd : read c2 srv2 a s1 = some (out, c3, srv3, log3)) :
    out = some v := by
  have hInv := reaches_inv c srv m hr
  have ha : a < c.n := by
    have := write_addr_lt c srv a s0 v _ hw
    rwa [hInv.pmap_len] at this
  obtain ⟨c1x, srv1x, log1x, heq, hInv1, hn1, -, -, -⟩ :=
    write_ok c srv m hInv a s0 v ha
  rw [hw] at heq
  simp only [Option.some.injEq, Prod.mk.injEq] at heq
  obtain ⟨-, hc1, hs1, -⟩ := heq
  rw [← hc1] at hInv1 hn1
  rw [← hs1] at hInv1
  obtain ⟨m2, hInv2, hn2, hag⟩ := runOps_ok mid c1 srv1 _ c2 srv2 hInv1 hrun
  have hm2a : m2 a = some v := by
    rw [hag a hmid]
    simp
  have ha2 : a < c2.n := by omega
  obtain ⟨c3x, srv3x, log3x, heq3, -, -, -, -, -⟩ := read_ok c2 srv2 m2 hInv2 a s1 ha2
  rw [hrd] at heq3
  simp only [Option.some.injEq, Prod.mk.injEq] at heq3
  obtain ⟨hout, -, -, -⟩ := heq3
  rw [hout]
  exact hm2a

/-- Claim C1 witness: after `setup 1 [10, 20]`, `write 0 99`, an intervening
`read 1`, and then `read 0`, the returned value is `some 99`. -/
theorem C1_read_after_write_witness :
    setup 1 [10, 20] g0 = some (c0v, srv0v) ∧
    write c0v srv0v 0 99 0 = some (some 10, c0v, srv1v, log1v) ∧
    runOps c0v srv1v [(Op.rd 1, 0)] = some (c0v, srv2v) ∧
    read c0v srv2v 0 0 = some (some 99, c0v, srv1v, log1v) ∧
    (some 99 : Option Int) = some 99 :=
  ⟨setup_eval, by decide, by decide, by decide,
    C1_read_after_write c0v srv0v (fun a => ([10, 20] : List Int).get? a)
      (ReachesWith.init 1 [10, 20] g0 c0v srv0v (by norm_num) (by norm_num) setup_eval)
      0 99 0 (some 10) c0v srv1v log1v (by decide)
      [(Op.rd 1, 0)] (by simp) c0v srv2v (by decide)
      0 (some 99) c0v srv1v log1v (by decide)⟩

/-- Claim C2: in every reachable state, every written logical address `a`
(one the abstract contents bind to a value `v`) has its block `⟨a, v⟩` either
in the client stash or in some bucket on the root-to-leaf path to leaf
`pmap[a]`. -/
theorem C2_position_map_coverage
    (c : ClientState) (srv : ServerState) (m : Nat → Option Int)
    (hr : ReachesWith c srv m) (a : Nat) (ha : a < c.n) (v : Int)
    (hm : m a = some v) :
    ((a : Int), v) ∈ c.stash ∨
    ∃ lv, lv ≤ c.l ∧
      (⟨(a : Int), v⟩ : Block) ∈
        srv.data_store.getD (get_index c.l (c.pmap.getD a 0) lv) [] := by
  have hInv := reaches_inv c srv m hr
  rcases hInv.exists_occ a ha v hm with h | ⟨b, hb, hmem⟩
  · exact Or.inl h
  · right
    have hne : ((a : Nat) : Int) ≠ -1 := by omega
    obtain ⟨lv, hlv, hbeq⟩ := hInv.coverage b hb ⟨(a : Int), v⟩ hmem hne
    refine ⟨lv, hlv, ?_⟩
    have htn : ((⟨(a : Int), v⟩ : Block).index).toNat = a := by simp
    rw [htn] at hbeq
    rw [← hbeq]
    exact hmem

/-- Claim C2 witness: in the state after `setup 1 [10, 20]`, address `0`
(contents `10`) is covered by the path to `pmap[0]`. -/
theorem C2_position_map_coverage_witness :
    (0 : Nat) < c0v.n ∧
    ((((0 : Nat) : Int), (10 : Int)) ∈ c0v.stash ∨
      ∃ lv, lv ≤ c0v.l ∧
        (⟨((0 : Nat) : Int), (10 : Int)⟩ : Block) ∈
          srv0v.data_store.getD (get_index c0v.l (c0v.pmap.getD 0 0) lv) []) :=
  ⟨by decide,
    C2_position_map_coverage c0v srv0v (fun a => ([10, 20] : List Int).get? a)
      (ReachesWith.init 1 [10, 20] g0 c0v srv0v (by norm_num) (by norm_num) setup_eval)
      0 (by decide) 10 rfl⟩

/-- Claim C10: in every reachable state every stash key is a non-negative
logical address below `N` (never the EMPTY sentinel `-1`) and indexes the
position map, so the `pmap[a as usize]` lookup in the eviction scan is in
bounds and `write_back_stash` never panics, whatever leaf is written back. -/
theorem C10_stash_addresses (c : ClientState) (srv : ServerState)
    (m : Nat → Option Int) (hr : ReachesWith c srv m) :
    (∀ p ∈ c.stash, 0 ≤ p.1 ∧ p.1 ≠ -1 ∧ p.1.toNat < c.n ∧
      p.1.toNat < c.pmap.length) ∧
    ∀ x : Nat, (write_back_stash c x).isSome := by
  have hInv := reaches_inv c srv m hr
  constructor
  · intro p hp
    obtain ⟨h1, h2, -⟩ := hInv.stash_entry p hp
    refine ⟨h1, by omega, h2, ?_⟩
    rw [hInv.pmap_len]
    exact h2
  · intro x
    obtain ⟨out, glv, hout, -⟩ := wbLevels_ok c.l c.z c.pmap x hInv.z_pos
      ((List.range (c.l + 1)).reverse) c.stash [] []
      (fun p hp => ⟨(hInv.stash_entry p hp).1,
        by rw [hInv.pmap_len]; exact (hInv.stash_entry p hp).2.1⟩)
      hInv.stash_nodup
    have hwb : write_back_stash c x = some out := hout
    rw [hwb]
    rfl

/-- Claim C10 witness: the stash-key bounds and the totality of
`write_back_stash` at the state reached by `setup 1 [10, 20]`. -/
theorem C10_stash_addresses_witness :
    (∀ p ∈ c0v.stash, 0 ≤ p.1 ∧ p.1 ≠ -1 ∧ p.1.toNat < c0v.n ∧
      p.1.toNat < c0v.pmap.length) ∧
    ∀ x : Nat, (write_back_stash c0v x).isSome :=
  C10_stash_addresses c0v srv0v (fun a => ([10, 20] : List Int).get? a)
    (ReachesWith.init 1 [10, 20] g0 c0v srv0v (by norm_num) (by norm_num) setup_eval)

/-- Claim C4 counterexample: in the mid-access state `cC4` (stash entries for
addresses `0` and `1`, both mapped to leaf `1`, `Z = 1`), after
`write_back_stash` for leaf `0` the entry `(1, 20)` remains in the stash even
though `pmap[1] = 1` lies in the onpath set of the root bucket
`get_index 1 0 0 = 0`, which is on the written path: the level-0 scan stopped
after picking address `0`. -/
theorem C4_eviction_counterexample :
    ∃ out, write_back_stash cC4 0 = some out ∧
      ((1 : Int), (20 : Int)) ∈ out.stash ∧
      cC4.pmap.getD 1 0 ∈ get_on_path_indices cC4.l 0 0 ∧
      get_index cC4.l 0 0 ∈ out.indices :=
  ⟨⟨[(1, 20)], [1, 0], [⟨-1, -1⟩, ⟨0, 10⟩]⟩, by decide, by decide, by decide,
    by decide⟩

/-- Claim C4 (amended): `write_back_stash` always succeeds and emits one
`Z`-block group per level, leaf-to-root; every non-EMPTY block placed in the
level-`lv` group has its `pmap` leaf in the onpath set of that bucket (so it
stays reachable); and a remaining stash entry is only guaranteed ineligible
at the levels whose emitted group kept an EMPTY slot — at a level whose group
filled up, an eligible entry may remain behind (see the counterexample). -/
theorem C4_eviction_postcondition
    (c : ClientState) (x : Nat) (hz : 0 < c.z)
    (hnd : (c.stash.map Prod.fst).Nodup)
    (hkeys : ∀ p ∈ c.stash, 0 ≤ p.1 ∧ p.1.toNat < c.pmap.length) :
    ∃ (out : WBOut) (glv : List (List Block × Nat)),
      write_back_stash c x = some out ∧
      glv.map Prod.snd = (List.range (c.l + 1)).reverse ∧
      out.indices = ((List.range (c.l + 1)).reverse).map (get_index c.l x) ∧
      out.blocks = (glv.map Prod.fst).flatten ∧
      (∀ pr ∈ glv, pr.1.length = c.z) ∧
      (∀ pr ∈ glv, ∀ blk ∈ pr.1, blk.index ≠ -1 →
        ∃ leaf, c.pmap.get? blk.index.toNat = some leaf ∧
          leaf ∈ get_on_path_indices c.l x pr.2) ∧
      (∀ p ∈ out.stash, ∀ pr ∈ glv, (∃ blk ∈ pr.1, blk.index = -1) →
        ∀ leaf, c.pmap.get? p.1.toNat = some leaf →
          leaf ∉ get_on_path_indices c.l x pr.2) := by
  obtain ⟨out, glv, hout, hsnd, hind, hblk, hglen, -, -, -, hval, hrem⟩ :=
    wbLevels_ok c.l c.z c.pmap x hz ((List.range (c.l + 1)).reverse) c.stash [] []
      hkeys hnd
  exact ⟨out, glv, hout, hsnd, by simpa using hind, by simpa using hblk, hglen,
    fun pr hpr blk hb hne => (hval pr hpr blk hb hne).2, hrem⟩

/-- Claim C4 witness: the amended eviction postcondition holds at the
counterexample state itself. -/
theorem C4_eviction_postcondition_witness :
    (0 < cC4.z ∧ (cC4.stash.map Prod.fst).Nodup ∧
      (∀ p ∈ cC4.stash, 0 ≤ p.1 ∧ p.1.toNat < cC4.pmap.length)) ∧
    (∃ (out : WBOut) (glv : List (List Block × Nat)),
      write_back_stash cC4 0 = some out ∧
      glv.map Prod.snd = (List.range (cC4.l + 1)).reverse ∧
      out.indices = ((List.range (cC4.l + 1)).reverse).map (get_index cC4.l 0) ∧
      out.blocks = (glv.map Prod.fst).flatten ∧
      (∀ pr ∈ glv, pr.1.length = cC4.z) ∧
      (∀ pr ∈ glv, ∀ blk ∈ pr.1, blk.index ≠ -1 →
        ∃ leaf, cC4.pmap.get? blk.index.toNat = some leaf ∧
          leaf ∈ get_on_path_indices cC4.l 0 pr.2) ∧
      (∀ p ∈ out.stash, ∀ pr ∈ glv, (∃ blk ∈ pr.1, blk.index = -1) →
        ∀ leaf, cC4.pmap.get? p.1.toNat = some leaf →
          leaf ∉ get_on_path_indices cC4.l 0 pr.2)) :=
  ⟨⟨by decide, by decide, by decide⟩,
    C4_eviction_postcondition cC4 0 (by decide) (by decide) (by decide)⟩

/-- Claim C6 counterexample: the server's `WriteBlock` accepts a request with
`blocks.len() = 2 ≠ 1 = indices.len() * bucket_size` (the extra block is
silently dropped), and with too few blocks it panics (`.expect`) instead of
returning `Invalid`. -/
theorem C6_write_block_counterexample :
    ((write_block ⟨[[⟨-1, -1⟩]], 1⟩ [0] [⟨0, 5⟩, ⟨0, 6⟩]).2 = .ok () ∧
      ([(⟨0, 5⟩ : Block), ⟨0, 6⟩].length ≠
        [0].length * (⟨[[⟨-1, -1⟩]], 1⟩ : ServerState).bucket_size)) ∧
    (write_block ⟨[[⟨-1, -1⟩]], 1⟩ [0] []).2 = .error .panic ∧
    (write_block ⟨[[⟨-1, -1⟩]], 1⟩ [0] ([] : List Block)).2 ≠ .error .invalid :=
  ⟨⟨by decide, by decide⟩, by decide, by decide⟩

/-- Claim C6 (amended): with in-range indices and full-sized buckets,
`write_block` succeeds exactly when `indices.len() * bucket_size ≤
blocks.len()` (surplus blocks are ignored) and panics otherwise; it never
returns `Invalid`; and on success each listed bucket is overwritten with the
next `bucket_size` blocks in order. -/
theorem C6_write_block_status (srv : ServerState) (idxs : List Nat)
    (blocks : List Block)
    (hin : ∀ i ∈ idxs, i < srv.data_store.length)
    (hbl : ∀ bu ∈ srv.data_store, bu.length = srv.bucket_size) :
    ((write_block srv idxs blocks).2 =
      if idxs.length * srv.bucket_size ≤ blocks.length then .ok ()
      else .error .panic) ∧
    (write_block srv idxs blocks).2 ≠ .error .invalid ∧
    (idxs.Nodup → idxs.length * srv.bucket_size ≤ blocks.length →
      ∀ j (hj : j < idxs.length),
        (write_block srv idxs blocks).1.data_store.get? (idxs.get ⟨j, hj⟩) =
          some ((blocks.drop (j * srv.bucket_size)).take srv.bucket_size)) := by
  refine ⟨?_, ?_, ?_⟩
  · exact write_block_loop_status srv.bucket_size idxs blocks srv.data_store hin hbl
  · exact write_block_loop_never_invalid srv.bucket_size idxs blocks srv.data_store
  · intro hnd hle j hj
    obtain ⟨store2, hloop, -, -, -, hseg⟩ :=
      write_block_loop_ok srv.bucket_size idxs blocks srv.data_store hin hbl hle hnd
    have hst : (write_block srv idxs blocks).1.data_store
        = (write_block_loop srv.bucket_size idxs blocks srv.data_store).1 := rfl
    rw [hst, hloop]
    exact hseg j hj

/-- Claim C6 witness: the amended `write_block` contract at a two-bucket
store. -/
theorem C6_write_block_status_witness :
    ((∀ i ∈ [0, 1], i < (⟨[[⟨-1, -1⟩], [⟨-1, -1⟩]], 1⟩ : ServerState).data_store.length) ∧
      (∀ bu ∈ (⟨[[⟨-1, -1⟩], [⟨-1, -1⟩]], 1⟩ : ServerState).data_store,
        bu.length = (⟨[[⟨-1, -1⟩], [⟨-1, -1⟩]], 1⟩ : ServerState).bucket_size)) ∧
    (((write_block ⟨[[⟨-1, -1⟩], [⟨-1, -1⟩]], 1⟩ [0, 1] [⟨0, 5⟩, ⟨1, 6⟩]).2 =
      if [0, 1].length * (⟨[[⟨-1, -1⟩], [⟨-1, -1⟩]], 1⟩ : ServerState).bucket_size ≤
          [(⟨0, 5⟩ : Block), ⟨1, 6⟩].length then .ok ()
      else .error .panic) ∧
    (write_block ⟨[[⟨-1, -1⟩], [⟨-1, -1⟩]], 1⟩ [0, 1] [⟨0, 5⟩, ⟨1, 6⟩]).2 ≠ .error .invalid ∧
    ([0, 1].Nodup → [0, 1].length * (⟨[[⟨-1, -1⟩], [⟨-1, -1⟩]], 1⟩ : ServerState).bucket_size ≤
        [(⟨0, 5⟩ : Block), ⟨1, 6⟩].length →
      ∀ j (hj : j < [0, 1].length),
        (write_block ⟨[[⟨-1, -1⟩], [⟨-1, -1⟩]], 1⟩ [0, 1] [⟨0, 5⟩, ⟨1, 6⟩]).1.data_store.get?
            ([0, 1].get ⟨j, hj⟩) =
          some (([(⟨0, 5⟩ : Block), ⟨1, 6⟩].drop
            (j * (⟨[[⟨-1, -1⟩], [⟨-1, -1⟩]], 1⟩ : ServerState).bucket_size)).take
            (⟨[[⟨-1, -1⟩], [⟨-1, -1⟩]], 1⟩ : ServerState).bucket_size))) :=
  ⟨⟨by decide, by decide⟩,
    C6_write_block_status ⟨[[⟨-1, -1⟩], [⟨-1, -1⟩]], 1⟩ [0, 1] [⟨0, 5⟩, ⟨1, 6⟩]
      (by decide) (by decide)⟩

/-- Claim C7 counterexample: with an empty server store every RPC fails, yet
`read` completes normally (`some`), returning `none` to the caller with no
error indication, the `pmap` remapping already applied, and the failures
recorded only in the access log. -/
theorem C7_rpc_error_counterexample :
    read c0v srvE 0 0 =
      some (none, c0v, srvE,
        ⟨[0, 1], false, [1, 0], [⟨-1, -1⟩, ⟨-1, -1⟩], false⟩) ∧
    read_block srvE (path_indices 1 0) = .error .notFound :=
  ⟨by decide, by decide⟩

/-- Claim C7 (amended): an RPC error during a logical access is not fatal and
is not surfaced: if the `ReadBlock` RPC fails, `read` still completes with
`some`, skipping the stash refresh (it returns `stash.get(&a)` on the stale
stash), with `pmap[a]` already remapped, the write-back still attempted, and
the failure visible only in the access log (`readOk = false`). -/
theorem C7_rpc_errors_swallowed (c : ClientState) (srv : ServerState)
    (a sample x : Nat) (hx : c.pmap.get? a = some x) (hnl : c.num_leaves ≠ 0)
    (e : Status)
    (herr : read_block srv (path_indices c.l x) = .error e)
    (wb : WBOut)
    (hwb : write_back_stash
      { c with pmap := c.pmap.set a (sample % c.num_leaves) } x = some wb) :
    read c srv a sample = some (stashGet c.stash (a : Int),
      { c with pmap := c.pmap.set a (sample % c.num_leaves), stash := wb.stash },
      (write_block srv wb.indices wb.blocks).1,
      ⟨path_indices c.l x, false, wb.indices, wb.blocks,
        (write_block srv wb.indices wb.blocks).2.toBool⟩) := by
  have hg : genRange c.num_leaves sample = some (sample % c.num_leaves) := by
    unfold genRange
    rw [if_neg hnl]
  simp only [read, hx, hg, Option.some_bind, Option.bind_eq_bind, herr, hwb, rpcOk]

/-- Claim C7 witness: the amended error behaviour at the empty-store server. -/
theorem C7_rpc_errors_swallowed_witness :
    (c0v.pmap.get? 0 = some 0 ∧ c0v.num_leaves ≠ 0 ∧
      read_block srvE (path_indices c0v.l 0) = .error .notFound ∧
      write_back_stash { c0v with pmap := c0v.pmap.set 0 (0 % c0v.num_leaves) } 0 =
        some ⟨[], [1, 0], [⟨-1, -1⟩, ⟨-1, -1⟩]⟩) ∧
    read c0v srvE 0 0 = some (stashGet c0v.stash ((0 : Nat) : Int),
      { c0v with
        pmap := c0v.pmap.set 0 (0 % c0v.num_leaves),
        stash := (⟨[], [1, 0], [⟨-1, -1⟩, ⟨-1, -1⟩]⟩ : WBOut).stash },
      (write_block srvE (⟨[], [1, 0], [⟨-1, -1⟩, ⟨-1, -1⟩]⟩ : WBOut).indices
        (⟨[], [1, 0], [⟨-1, -1⟩, ⟨-1, -1⟩]⟩ : WBOut).blocks).1,
      ⟨path_indices c0v.l 0, false,
        (⟨[], [1, 0], [⟨-1, -1⟩, ⟨-1, -1⟩]⟩ : WBOut).indices,
        (⟨[], [1, 0], [⟨-1, -1⟩, ⟨-1, -1⟩]⟩ : WBOut).blocks,
        (write_block srvE (⟨[], [1, 0], [⟨-1, -1⟩, ⟨-1, -1⟩]⟩ : WBOut).indices
          (⟨[], [1, 0], [⟨-1, -1⟩, ⟨-1, -1⟩]⟩ : WBOut).blocks).2.toBool⟩) :=
  ⟨⟨by decide, by decide, by decide, by decide⟩,
    C7_rpc_errors_swallowed c0v srvE 0 0 0 (by decide) (by decide) .notFound
      (by decide) ⟨[], [1, 0], [⟨-1, -1⟩, ⟨-1, -1⟩]⟩ (by decide)⟩

/-- Claim C9: every request `write_back_stash` emits holds exactly `L + 1`
indices — the path buckets leaf-to-root — and exactly `(L + 1) · Z` blocks,
`Z` consecutive blocks per index; so when the server records
`bucket_size = Z` and its store has the tree shape, the composed `WriteBlock`
call succeeds — the server's blocks-exhausted panic branch is unreachable. -/
theorem C9_request_shape (c : ClientState) (srv : ServerState)
    (hz : 0 < c.z) (hl : 0 < c.l) (hbsz : srv.bucket_size = c.z)
    (hslen : srv.data_store.length = 2 ^ (c.l + 1) - 1)
    (hblen : ∀ bu ∈ srv.data_store, bu.length = srv.bucket_size)
    (x : Nat) (hx : x < 2 ^ c.l)
    (wb : WBOut) (hwb : write_back_stash c x = some wb) :
    wb.indices = ((List.range (c.l + 1)).reverse).map (get_index c.l x) ∧
    wb.indices.length = c.l + 1 ∧
    wb.blocks.length = (c.l + 1) * c.z ∧
    (∃ gs : List (List Block), wb.blocks = gs.flatten ∧ gs.length = c.l + 1 ∧
      ∀ g ∈ gs, g.length = c.z) ∧
    (write_block srv wb.indices wb.blocks).2 = .ok () := by
  have hind := wbLevels_indices c.l c.z c.pmap x ((List.range (c.l + 1)).reverse)
    ⟨c.stash, [], []⟩ wb hwb
  have hindices : wb.indices = ((List.range (c.l + 1)).reverse).map (get_index c.l x) := by
    simpa using hind
  obtain ⟨gs, hbl2, hglen, hgz⟩ := wbLevels_shape c.l c.z c.pmap x hz
    ((List.range (c.l + 1)).reverse) ⟨c.stash, [], []⟩ wb hwb
  have hilen : wb.indices.length = c.l + 1 := by
    rw [hindices, List.length_map, List.length_reverse, List.length_range]
  have hblocks : wb.blocks = gs.flatten := by simpa using hbl2
  have hgslen : gs.length = c.l + 1 := by
    rw [hglen, List.length_reverse, List.length_range]
  have hblen2 : wb.blocks.length = (c.l + 1) * c.z := by
    rw [hblocks, flatten_length_const c.z gs hgz, hgslen]
  have hle : wb.indices.length * srv.bucket_size ≤ wb.blocks.length := by
    rw [hilen, hblen2, hbsz]
  refine ⟨hindices, hilen, hblen2, ⟨gs, hblocks, hgslen, hgz⟩, ?_⟩
  show (write_block_loop srv.bucket_size wb.indices wb.blocks srv.data_store).2 = .ok ()
  rw [write_block_loop_status srv.bucket_size wb.indices wb.blocks srv.data_store
    ?hin hblen, if_pos hle]
  case hin =>
    intro i hi
    rw [hindices, List.mem_map] at hi
    obtain ⟨lv, hlv, rfl⟩ := hi
    rw [hslen]
    refine get_index_lt_num_buckets c.l x lv hl hx ?_
    rw [List.mem_reverse, List.mem_range] at hlv
    omega

/-- Claim C9 witness: the request shape and the successful server write at
the post-setup state. -/
theorem C9_request_shape_witness :
    (0 < c0v.z ∧ 0 < c0v.l ∧ srv0v.bucket_size = c0v.z ∧
      write_back_stash c0v 0 = some ⟨[], [1, 0], [⟨-1, -1⟩, ⟨-1, -1⟩]⟩) ∧
    ((⟨[], [1, 0], [⟨-1, -1⟩, ⟨-1, -1⟩]⟩ : WBOut).indices =
      ((List.range (c0v.l + 1)).reverse).map (get_index c0v.l 0) ∧
    (⟨[], [1, 0], [⟨-1, -1⟩, ⟨-1, -1⟩]⟩ : WBOut).indices.length = c0v.l + 1 ∧
    (⟨[], [1, 0], [⟨-1, -1⟩, ⟨-1, -1⟩]⟩ : WBOut).blocks.length = (c0v.l + 1) * c0v.z ∧
    (∃ gs : List (List Block),
      (⟨[], [1, 0], [⟨-1, -1⟩, ⟨-1, -1⟩]⟩ : WBOut).blocks = gs.flatten ∧
      gs.length = c0v.l + 1 ∧ ∀ g ∈ gs, g.length = c0v.z) ∧
    (write_block srv0v (⟨[], [1, 0], [⟨-1, -1⟩, ⟨-1, -1⟩]⟩ : WBOut).indices
      (⟨[], [1, 0], [⟨-1, -1⟩, ⟨-1, -1⟩]⟩ : WBOut).blocks).2 = .ok ()) :=
  ⟨⟨by decide, by decide, by decide, by decide⟩,
    C9_request_shape c0v srv0v (by decide) (by decide) (by decide) (by decide)
      (by decide) 0 (by decide) ⟨[], [1, 0], [⟨-1, -1⟩, ⟨-1, -1⟩]⟩ (by decide)⟩

/-- A successful `read` sends exactly the root-to-leaf indices of the prior
leaf `x` in its `ReadBlockRequest`, leaves `pmap` remapped to the fresh leaf,
and its `WriteBlockRequest` indices are the path buckets leaf-to-root,
independent of the stash contents. -/
theorem read_log_shape (c : ClientState) (srv : ServerState)
    (a sample x fresh : Nat)
    (hx : c.pmap.get? a = some x) (hg : genRange c.num_leaves sample = some fresh)
    (outR : Option Int) (cR : ClientState) (srvR : ServerState) (logR : AccessLog)
    (hrd : read c srv a sample = some (outR, cR, srvR, logR)) :
    logR.readIndices = path_indices c.l x ∧
    cR.pmap = c.pmap.set a fresh ∧
    logR.writeIndices = ((List.range (c.l + 1)).reverse).map (get_index c.l x) := by
  simp only [read, hx, hg, Option.some_bind, Option.bind_eq_bind] at hrd
  cases hres : read_block srv (path_indices c.l x) with
  | ok blocks =>
    rw [hres] at hrd
    rw [Option.bind_eq_some] at hrd
    obtain ⟨wb, hwb, heq⟩ := hrd
    simp only [Option.some.injEq, Prod.mk.injEq] at heq
    obtain ⟨-, hcR, -, hlog⟩ := heq
    have hind := wbLevels_indices c.l c.z (c.pmap.set a fresh) x
      ((List.range (c.l + 1)).reverse) _ wb hwb
    refine ⟨?_, ?_, ?_⟩
    · rw [← hlog]
    · rw [← hcR]
    · rw [← hlog]
      simpa using hind
  | error e =>
    rw [hres] at hrd
    rw [Option.bind_eq_some] at hrd
    obtain ⟨wb, hwb, heq⟩ := hrd
    simp only [Option.some.injEq, Prod.mk.injEq] at heq
    obtain ⟨-, hcR, -, hlog⟩ := heq
    have hind := wbLevels_indices c.l c.z (c.pmap.set a fresh) x
      ((List.range (c.l + 1)).reverse) _ wb hwb
    refine ⟨?_, ?_, ?_⟩
    · rw [← hlog]
    · rw [← hcR]
    · rw [← hlog]
      simpa using hind

/-- The same request shape for a successful `write`: the only difference from
`read` is the stash insertion at the midpoint, which affects neither request's
indices. -/
theorem write_log_shape (c : ClientState) (srv : ServerState)
    (a sample x fresh : Nat) (v : Int)
    (hx : c.pmap.get? a = some x) (hg : genRange c.num_leaves sample = some fresh)
    (outW : Option Int) (cW : ClientState) (srvW : ServerState) (logW : AccessLog)
    (hwr : write c srv a v sample = some (outW, cW, srvW, logW)) :
    logW.readIndices = path_indices c.l x ∧
    cW.pmap = c.pmap.set a fresh ∧
    logW.writeIndices = ((List.range (c.l + 1)).reverse).map (get_index c.l x) := by
  simp only [write, hx, hg, Option.some_bind, Option.bind_eq_bind] at hwr
  cases hres : read_block srv (path_indices c.l x) with
  | ok blocks =>
    rw [hres] at hwr
    rw [Option.bind_eq_some] at hwr
    obtain ⟨wb, hwb, heq⟩ := hwr
    simp only [Option.some.injEq, Prod.mk.injEq] at heq
    obtain ⟨-, hcW, -, hlog⟩ := heq
    have hind := wbLevels_indices c.l c.z (c.pmap.set a fresh) x
      ((List.range (c.l + 1)).reverse) _ wb hwb
    refine ⟨?_, ?_, ?_⟩
    · rw [← hlog]
    · rw [← hcW]
    · rw [← hlog]
      simpa using hind
  | error e =>
    rw [hres] at hwr
    rw [Option.bind_eq_some] at hwr
    obtain ⟨wb, hwb, heq⟩ := hwr
    simp only [Option.some.injEq, Prod.mk.injEq] at heq
    obtain ⟨-, hcW, -, hlog⟩ := heq
    have hind := wbLevels_indices c.l c.z (c.pmap.set a fresh) x
      ((List.range (c.l + 1)).reverse) _ wb hwb
    refine ⟨?_, ?_, ?_⟩
    · rw [← hlog]
    · rw [← hcW]
    · rw [← hlog]
      simpa using hind

/-- Claim C3: for a successful access to `a`, the `ReadBlockRequest` indices
are exactly the root-to-leaf path `[get_index x 0, …, get_index x L]` of the
leaf `x = pmap[a]` read immediately before the access; `pmap[a]` is replaced
by the fresh uniform leaf `sample % num_leaves` before either RPC; and `read`
and `write` from the same state with the same RNG sample produce identical
`ReadBlock` and `WriteBlock` index sequences (and the same remapping). -/
theorem C3_path_obliviousness (c : ClientState) (srv : ServerState)
    (a sample : Nat) (v : Int)
    (outR : Option Int) (cR : ClientState) (srvR : ServerState) (logR : AccessLog)
    (hrd : read c srv a sample = some (outR, cR, srvR, logR))
    (outW : Option Int) (cW : ClientState) (srvW : ServerState) (logW : AccessLog)
    (hwr : write c srv a v sample = some (outW, cW, srvW, logW)) :
    logR.readIndices = path_indices c.l (c.pmap.getD a 0) ∧
    cR.pmap = c.pmap.set a (sample % c.num_leaves) ∧
    cW.pmap = cR.pmap ∧
    logW.readIndices = logR.readIndices ∧
    logW.writeIndices = logR.writeIndices := by
  cases hx : c.pmap.get? a with
  | none =>
    exfalso
    simp only [read, Option.bind_eq_bind] at hrd
    rw [hx] at hrd
    simp at hrd
  | some x =>
    cases hg : genRange c.num_leaves sample with
    | none =>
      exfalso
      simp only [read, Option.bind_eq_bind] at hrd
      rw [hx, hg] at hrd
      simp at hrd
    | some fresh =>
      have hfr : fresh = sample % c.num_leaves := by
        simp only [genRange] at hg
        by_cases h0 : c.num_leaves = 0
        · rw [if_pos h0] at hg
          cases hg
        · rw [if_neg h0] at hg
          exact (Option.some.inj hg).symm
      have hxd : c.pmap.getD a 0 = x := by
        rw [List.getD_eq_getD_get?, hx]
        rfl
      obtain ⟨hR1, hR2, hR3⟩ :=
        read_log_shape c srv a sample x fresh hx hg outR cR srvR logR hrd
      obtain ⟨hW1, hW2, hW3⟩ :=
        write_log_shape c srv a sample x fresh v hx hg outW cW srvW logW hwr
      exact ⟨by rw [hR1, hxd], by rw [hR2, hfr], by rw [hW2, hR2],
        by rw [hW1, hR1], by rw [hW3, hR3]⟩

/-- Claim C3 witness: `read` and `write` issued from the post-setup state with
RNG sample `3` produce the logged path `[0, 1]` to leaf `pmap[0] = 0`, remap
`pmap[0]` to `3 % 2 = 1`, and issue identical index sequences. -/
theorem C3_path_obliviousness_witness :
    (read c0v srv0v 0 3 = some (some 10, cRv, srvRv, logRv) ∧
      write c0v srv0v 0 77 3 = some (some 10, cRv, srvWv, logWv)) ∧
    (logRv.readIndices = path_indices c0v.l (c0v.pmap.getD 0 0) ∧
      cRv.pmap = c0v.pmap.set 0 (3 % c0v.num_leaves) ∧
      cRv.pmap = cRv.pmap ∧
      logWv.readIndices = logRv.readIndices ∧
      logWv.writeIndices = logRv.writeIndices) :=
  ⟨⟨by decide, by decide⟩,
    C3_path_obliviousness c0v srv0v 0 3 77 (some 10) cRv srvRv logRv (by decide)
      (some 10) cRv srvWv logWv (by decide)⟩

end PathORAM
